import Mathlib

/-!
Verification of the inipp INI parser / interpolation engine (inipp.h).

The development shallowly embeds the header's data model and operations:

* strings are `List Char` (`Str`); `ltrim`, `rtrim` model the locale-"C"
  trimming helpers; `ltStr` models `std::basic_string` `operator<`
  (lexicographic comparison of character values);
* `Section` / `Sections` model `std::map<String, String>` and
  `std::map<String, Section>` as association lists kept sorted by key,
  with `mapFind` (map::find), `mapInsert` (map::insert, which keeps an
  existing binding), and `mapSet` (assignment through a reference
  obtained from the map);
* `parseLine` models the per-line body of `Ini::parse`, `getlines`
  models the `std::getline` loop, `generate` models `Ini::generate`;
* `strFind` models `std::basic_string::find`, `replaceGo` models the
  loop of `detail::replace` (fuelled, `none` = the loop did not finish
  within the fuel), `dreplace` its result with fuel `|s| + 1`;
* `local_symbol`, `global_symbol`, `local_symbols`, `global_symbols`,
  `replace_symbols`, `interpGo`, `interpolate` model `Ini::interpolate`
  and its helpers; `default_section` models `Ini::default_section`;
* `extractInt`, `extractBool`, `extractString` model the `extract`
  overloads (stream extraction with `boolalpha`, followed by the probe
  read of one more character).
-/

namespace Inipp

/-- Strings of the embedding: the character sequence of a `std::basic_string`. -/
abbrev Str := List Char

/-- Whitespace of the "C" locale, as used by `ltrim`/`rtrim` via `std::isspace`. -/
def isSpaceC (c : Char) : Bool :=
  c = ' ' || c = '\t' || c = '\n' || c = '\x0b' || c = '\x0c' || c = '\r'

/-- Model of `detail::ltrim`: erase the leading run of whitespace. -/
def ltrim (s : Str) : Str := s.dropWhile isSpaceC

/-- Model of `detail::rtrim`: erase the trailing run of whitespace. -/
def rtrim (s : Str) : Str := (s.reverse.dropWhile isSpaceC).reverse

/-- ltrim followed by rtrim, as done at the top of the `Ini::parse` loop. -/
def trimC (s : Str) : Str := rtrim (ltrim s)

/-- Model of `std::basic_string` `operator<`: lexicographic comparison of the
character values (the key order of `std::map<String, _>`). -/
def ltStr : Str → Str → Bool
  | [], [] => false
  | [], _ :: _ => true
  | _ :: _, [] => false
  | a :: as, b :: bs =>
    if a.toNat < b.toNat then true
    else if b.toNat < a.toNat then false
    else ltStr as bs

/-- A `std::map<String, String>`: association list sorted by `ltStr`. -/
abbrev Section := List (Str × Str)

/-- A `std::map<String, Section>`: association list sorted by `ltStr`. -/
abbrev Sections := List (Str × Section)

/-- Model of `std::map::find` (also the lookup half of `operator[]`). -/
def mapFind (k : Str) : List (Str × α) → Option α
  | [] => none
  | (k', v) :: rest => if k = k' then some v else mapFind k rest

/-- Model of `std::map::insert`: place the pair at its sorted position, keeping an
existing binding for an equivalent key unchanged. -/
def mapInsert (k : Str) (v : α) : List (Str × α) → List (Str × α)
  | [] => [(k, v)]
  | (k', v') :: rest =>
    if ltStr k k' then (k, v) :: (k', v') :: rest
    else if ltStr k' k then (k', v') :: mapInsert k v rest
    else (k', v') :: rest

/-- Assignment through a reference into the map (`map[k] = v` after the
key is known to be present): replace the value stored at `k`. -/
def mapSet (k : Str) (v : α) : List (Str × α) → List (Str × α)
  | [] => []
  | (k', v') :: rest =>
    if k = k' then (k', v) :: rest else (k', v') :: mapSet k v rest

/-- The mutable state of `Ini::parse`: the local `section` variable and
the `sections` / `errors` members being built. -/
structure ParseState where
  sect : Str
  sections : Sections
  errors : List Str
  deriving DecidableEq, Repr

/-- The body of the `while (std::getline(...))` loop of `Ini::parse`,
applied to the line already trimmed (the code trims `line` in place
before inspecting it). -/
def parseLineCore (st : ParseState) (line : Str) : ParseState :=
  match line with
  | [] => st
  | front :: rest =>
    let pos := List.findIdx? (fun c => c = '=') (front :: rest)
    if front = ';' then st
    else if front = '[' then
      if (front :: rest).getLast? = some ']' then
        { st with sect := ((front :: rest).drop 1).dropLast }
      else { st with errors := st.errors ++ [front :: rest] }
    else
      match pos with
      | some p =>
        if p ≠ 0 then
          let varName := rtrim ((front :: rest).take p)
          let value := ltrim ((front :: rest).drop (p + 1))
          let ss1 := mapInsert st.sect ([] : Section) st.sections
          let sec := (mapFind st.sect ss1).getD []
          if mapFind varName sec = none then
            { st with sections := mapSet st.sect (mapInsert varName value sec) ss1 }
          else { st with sections := ss1, errors := st.errors ++ [front :: rest] }
        else { st with errors := st.errors ++ [front :: rest] }
      | none => { st with errors := st.errors ++ [front :: rest] }

/-- One iteration of the `Ini::parse` loop on a raw input line. -/
def parseLine (st : ParseState) (raw : Str) : ParseState :=
  parseLineCore st (trimC raw)

/-- The state of a freshly constructed `Ini` object. -/
def initState : ParseState := ⟨[], [], []⟩

/-- Model of `Ini::parse` on a list of input lines. -/
def parseLs (lines : List Str) : ParseState :=
  lines.foldl parseLine initState

/-- The `std::getline` loop: split a character stream into lines at
newline characters; a trailing newline does not produce an extra empty
line (the next `getline` fails at end of stream). -/
def getlines : Str → List Str
  | [] => []
  | c :: rest =>
    if c = '\n' then [] :: getlines rest
    else
      match getlines rest with
      | [] => [[c]]
      | l :: ls => (c :: l) :: ls

/-- Model of `Ini::parse` on a character stream. -/
def parseText (text : Str) : ParseState :=
  parseLs (getlines text)

/-- The lines written by `Ini::generate`: for every section `[name]`,
then every `key=value` pair, then a blank line. -/
def genLines (d : Sections) : List Str :=
  d.flatMap fun s =>
    ('[' :: s.1 ++ [']']) :: (s.2.map fun kv => kv.1 ++ '=' :: kv.2) ++ [[]]

/-- Join lines with the newline written by `std::endl`. -/
def joinNl (ls : List Str) : Str := ls.flatMap (· ++ ['\n'])

/-- Model of `Ini::generate`: the character stream written to the output stream. -/
def generate (d : Sections) : Str := joinNl (genLines d)

/-- Scan of `std::basic_string::find` from index `idx` of the suffix `s`. -/
def strFindGo (pat : Str) : Str → Nat → Option Nat
  | s, idx =>
    if pat.isPrefixOf s then some idx
    else
      match s with
      | [] => none
      | _ :: rest => strFindGo pat rest (idx + 1)

/-- Model of `std::basic_string::find(pat, start)`: the smallest index `i ≥ start`
at which `pat` occurs in `s` (`none` = `npos`). -/
def strFind (s pat : Str) (start : Nat) : Option Nat :=
  if s.length < start then none else strFindGo pat (s.drop start) start

/-- The loop of `detail::replace`, fuelled: replace the occurrence of
`frm` found at or after `pos` by `to`, resume right after the inserted
text.  `none` means the loop did not finish within `fuel` iterations
(for an empty `frm` the C++ loop never terminates). -/
def replaceGo : Nat → Str → Str → Str → Nat → Bool → Option (Str × Bool)
  | 0, _, _, _, _, _ => none
  | fuel + 1, frm, toS, s, pos, changed =>
    match strFind s frm pos with
    | none => some (s, changed)
    | some i =>
      replaceGo fuel frm toS (s.take i ++ toS ++ s.drop (i + frm.length)) (i + toS.length) true

/-- Model of `detail::replace(str, from, to)`: the final string and the `changed`
flag.  Fuel `|str| + 1` is enough whenever `from` is nonempty (proved
below); the default is never reached in the program, where every
pattern starts with `"${"` . -/
def dreplace (frm toS s : Str) : Str × Bool :=
  (replaceGo (s.length + 1) frm toS s 0 false).getD (s, false)

/-- Model of `Ini::local_symbol(name)` = `"${" + name + "}"`. -/
def local_symbol (name : Str) : Str := '$' :: '{' :: (name ++ ['}'])

/-- Model of `Ini::global_symbol(sec_name, name)` = `"${" + sec_name + ":" + name + "}"`. -/
def global_symbol (secName name : Str) : Str := local_symbol (secName ++ ':' :: name)

/-- The `Symbols` list of `Ini`: (pattern, replacement) pairs. -/
abbrev Symbols := List (Str × Str)

/-- Model of `Ini::local_symbols`: for every key of the section, the pair
`("${key}", "${sec_name:key}")`, in map order. -/
def local_symbols (secName : Str) (sec : Section) : Symbols :=
  sec.map fun kv => (local_symbol kv.1, global_symbol secName kv.1)

/-- Model of `Ini::global_symbols`: for every section and key, the pair
`("${sec:key}", value)`, in map order. -/
def global_symbols (ss : Sections) : Symbols :=
  ss.flatMap fun s => s.2.map fun kv => (global_symbol s.1 kv.1, kv.2)

/-- The inner loop of `Ini::replace_symbols` for one symbol: apply
`detail::replace` to every value of the section, `or`-ing the flags. -/
def applySym (sym : Str × Str) (sec : Section) : Section × Bool :=
  (sec.map fun kv => (kv.1, (dreplace sym.1 sym.2 kv.2).1),
   sec.any fun kv => (dreplace sym.1 sym.2 kv.2).2)

/-- Model of `Ini::replace_symbols(syms, sec)`: apply each symbol in turn to all
values of the section; `changed` collects whether any replacement
happened. -/
def replace_symbols (syms : Symbols) (sec : Section) : Section × Bool :=
  syms.foldl (fun acc sym =>
    let r := applySym sym acc.1
    (r.1, acc.2 || r.2)) (sec, false)

/-- Model of `Ini::max_interpolation_depth`. -/
def max_interpolation_depth : Nat := 10

/-- One iteration of the `do` loop of `Ini::interpolate`: snapshot the
global symbols, then apply them to every section, collecting `changed`. -/
def interpPass (ss : Sections) : Sections × Bool :=
  let syms := global_symbols ss
  (ss.map fun s => (s.1, (replace_symbols syms s.2).1),
   ss.any fun s => (replace_symbols syms s.2).2)

/-- The `do { ... } while (changed && (max_interpolation_depth >
global_iteration++))` loop of `Ini::interpolate`, with
`global_iteration = gi` and the number of loop entries still permitted
by the counter check, `max_interpolation_depth + 1 - gi`, carried as a
structural argument (the fuel-0 fallback is unreachable: the loop
condition compares `gi` against the constant depth, so at most
`max_interpolation_depth + 1 - gi` further iterations can run). -/
def interpGoF : Nat → Nat → Sections → Sections
  | 0, _, ss => ss
  | fuel + 1, gi, ss =>
    let r := interpPass ss
    if r.2 && decide (max_interpolation_depth > gi) then interpGoF fuel (gi + 1) r.1 else r.1

/-- The `do` loop of `Ini::interpolate` entered with `global_iteration = gi`. -/
def interpGo (gi : Nat) (ss : Sections) : Sections :=
  interpGoF (max_interpolation_depth + 1 - gi) gi ss

/-- The first phase of `Ini::interpolate`: for every section, replace
each `"${key}"` by `"${sec_name:key}"` in that section's own values. -/
def localizePass (ss : Sections) : Sections :=
  ss.map fun s => (s.1, (replace_symbols (local_symbols s.1 s.2) s.2).1)

/-- Model of `Ini::interpolate`. -/
def interpolate (ss : Sections) : Sections :=
  interpGo 0 (localizePass ss)

/-- Model of `Ini::default_section(sec)`: insert every pair of `sec` into every
existing section (`map::insert` keeps existing bindings). -/
def default_section (sec : Section) (ss : Sections) : Sections :=
  ss.map fun s2 => (s2.1, sec.foldl (fun acc val => mapInsert val.1 val.2 acc) s2.2)

/-- Stream extraction of whitespace (`std::istream` `skipws`). -/
def skipWs (s : Str) : Str := s.dropWhile isSpaceC

/-- Decimal digit run consumed by `operator>>` into an integer. -/
def readDigits (s : Str) : Str × Str := (s.takeWhile (·.isDigit), s.dropWhile (·.isDigit))

/-- Lower bound of the C++ `int` target of `extract` (32-bit two's
complement, the width of `int` on the platforms inipp targets). -/
def intMin : Int := -2147483648

/-- Upper bound of the C++ `int` target of `extract`. -/
def intMax : Int := 2147483647

/-- Stream extraction `is >> result` for `int`: skip whitespace, an
optional sign, then a nonempty digit run; as in `std::num_get`, a
field whose value does not fit in `int` makes the read fail (the
stream sets failbit), modeled by `none` — like an empty digit field. -/
def readInt (s : Str) : Option (Int × Str) :=
  let s1 := skipWs s
  match s1 with
  | '-' :: rest =>
    let (ds, rest') := readDigits rest
    if ds = [] then none
    else
      let n : Int := -(Int.ofNat (Nat.ofDigits 10 (ds.map (·.toNat - 48)).reverse))
      if n < intMin then none else some (n, rest')
  | '+' :: rest =>
    let (ds, rest') := readDigits rest
    if ds = [] then none
    else
      let n : Int := Int.ofNat (Nat.ofDigits 10 (ds.map (·.toNat - 48)).reverse)
      if intMax < n then none else some (n, rest')
  | _ =>
    let (ds, rest') := readDigits s1
    if ds = [] then none
    else
      let n : Int := Int.ofNat (Nat.ofDigits 10 (ds.map (·.toNat - 48)).reverse)
      if intMax < n then none else some (n, rest')

/-- Stream extraction `is >> std::boolalpha >> result` for `bool`: skip
whitespace, then match the `numpunct` names `"true"` / `"false"`. -/
def readBool (s : Str) : Option (Bool × Str) :=
  let s1 := skipWs s
  if ['t', 'r', 'u', 'e'].isPrefixOf s1 then some (true, s1.drop 4)
  else if ['f', 'a', 'l', 's', 'e'].isPrefixOf s1 then some (false, s1.drop 5)
  else none

/-- The probe `is >> c` for a `CharT`: skip whitespace, then read one
character; fails exactly when only whitespace remains. -/
def readCharTok (s : Str) : Option (Char × Str) :=
  match skipWs s with
  | [] => none
  | c :: r => some (c, r)

/-- Model of `inipp::extract<CharT, int>`: succeed and overwrite `dst` only when
the integer read succeeds and the probe read of one more character
fails. -/
def extractInt (value : Str) (dst : Int) : Bool × Int :=
  match readInt value with
  | some (r, rest) =>
    match readCharTok rest with
    | some _ => (false, dst)
    | none => (true, r)
  | none => (false, dst)

/-- Model of `inipp::extract<CharT, bool>` (with `std::boolalpha`). -/
def extractBool (value : Str) (dst : Bool) : Bool × Bool :=
  match readBool value with
  | some (r, rest) =>
    match readCharTok rest with
    | some _ => (false, dst)
    | none => (true, r)
  | none => (false, dst)

/-- The string overload of `inipp::extract`: always succeeds, copies
the value verbatim. -/
def extractString (value : Str) (_dst : Str) : Bool × Str :=
  (true, value)

/-- The key order used for sortedness of a `std::map` association list. -/
def keyLt (p q : Str × α) : Prop := ltStr p.1 q.1 = true

/-- Well-formedness of a `std::map` association list: keys strictly
ascending in `ltStr`. -/
def SortedMap (l : List (Str × α)) : Prop := l.Pairwise keyLt

instance {α : Type} : DecidableRel (keyLt (α := α)) := fun p q =>
  inferInstanceAs (Decidable (ltStr p.1 q.1 = true))

instance {α : Type} (l : List (Str × α)) : Decidable (SortedMap l) :=
  inferInstanceAs (Decidable (l.Pairwise keyLt))

/-- Invariant of every state reachable by `Ini::parse`: the section map
is sorted; every section is sorted and nonempty; every key is nonempty
and does not start with the comment character. -/
def StInv (st : ParseState) : Prop :=
  SortedMap st.sections ∧
  ∀ p ∈ st.sections, p.2 ≠ [] ∧ SortedMap p.2 ∧
    ∀ kv ∈ p.2, kv.1 ≠ [] ∧ kv.1.head? ≠ some ';'

/-! ### Definitions used to analyse the interpolation loop (claim C5) -/
/-- One execution of the body of the `do` loop of `Ini::interpolate`
(the resulting sections, discarding the `changed` flag). -/
def passFun (ss : Sections) : Sections := (interpPass ss).1

/-- The interpolation pattern `"${s:a}"` of key `a` in section `s`. -/
def dotsPat : Str := ['$', '\x7b', 's', ':', 'a', '\x7d']

/-- The value `"..." ++ "${s:a}"` with `n` leading dots. -/
def dotsVal (n : Nat) : Str := List.replicate n '.' ++ dotsPat

/-- A one-section, one-key document whose value references itself after
`n` dots: every pass doubles the number of dots and reports a change. -/
def dotsDoc (n : Nat) : Sections := [(['s'], [(['a'], dotsVal n)])]

/-- No newline occurs in the current section name, the section names,
the keys or the values of the parse state. -/
def NlInv (st : ParseState) : Prop :=
  ('\n' : Char) ∉ st.sect ∧
  ∀ p ∈ st.sections, ('\n' : Char) ∉ p.1 ∧
    ∀ kv ∈ p.2, ('\n' : Char) ∉ kv.1 ∧ ('\n' : Char) ∉ kv.2

/-! Properties of a key / value that guarantee the serialized
`key=value` line parses back to exactly that pair. -/
/-- A serializable key: nonempty, not opening a comment or a header,
free of `=`, with no surrounding whitespace. -/
def RTKey (k : Str) : Prop :=
  k ≠ [] ∧ k.head? ≠ some ';' ∧ k.head? ≠ some '[' ∧ ('=' : Char) ∉ k ∧
  ltrim k = k ∧ rtrim k = k

/-- A serializable value: no surrounding whitespace. -/
def RTVal (v : Str) : Prop := ltrim v = v ∧ rtrim v = v

/-- The sample text for the C9 witness. -/
def juiceText : Str := ['k', '=', 'v', '\n', '[', 's', ']', '\n', 'a', '=', '1']

/-! ### Theorems -/

/-! ### Properties of the string order -/
theorem charToNat_inj {a b : Char} (h : a.toNat = b.toNat) : a = b := by
  apply Char.ext
  exact UInt32.ext h

theorem ltStr_irrefl (s : Str) : ltStr s s = false := by
  induction s with
  | nil => rfl
  | cons a as ih => simp [ltStr, ih]

theorem ltStr_asymm : ∀ {a b : Str}, ltStr a b = true → ltStr b a = false
  | [], [], h => by simp [ltStr] at h
  | [], _ :: _, _ => rfl
  | _ :: _, [], h => by simp [ltStr] at h
  | a :: as, b :: bs, h => by
    simp only [ltStr] at h ⊢
    by_cases h1 : a.toNat < b.toNat
    · have h2 : ¬ b.toNat < a.toNat := by omega
      simp [h1, h2]
    · by_cases h2 : b.toNat < a.toNat
      · simp [h1, h2] at h
      · simp only [h1, h2, if_neg, if_false]
        simp only [if_neg h1, if_neg h2] at h
        exact ltStr_asymm h

theorem ltStr_eq_of_not_lt : ∀ {a b : Str},
    ltStr a b = false → ltStr b a = false → a = b
  | [], [], _, _ => rfl
  | [], _ :: _, h, _ => by simp [ltStr] at h
  | _ :: _, [], _, h' => by simp [ltStr] at h'
  | a :: as, b :: bs, h, h' => by
    simp only [ltStr] at h h'
    by_cases h1 : a.toNat < b.toNat
    · simp [h1] at h
    · by_cases h2 : b.toNat < a.toNat
      · simp [h2, h1] at h'
      · simp only [if_neg h1, if_neg h2] at h
        simp only [if_neg h2, if_neg h1] at h'
        have hab : a = b := charToNat_inj (by omega)
        have : as = bs := ltStr_eq_of_not_lt h h'
        rw [hab, this]

theorem ltStr_trans : ∀ {a b c : Str},
    ltStr a b = true → ltStr b c = true → ltStr a c = true
  | [], _ :: _, _ :: _, _, _ => rfl
  | [], [], _, h, _ => by simp [ltStr] at h
  | _, _ :: _, [], _, h' => by simp [ltStr] at h'
  | _ :: _, [], _, h, _ => by simp [ltStr] at h
  | a :: as, b :: bs, c :: cs, h, h' => by
    simp only [ltStr] at h h' ⊢
    by_cases h1 : a.toNat < b.toNat <;> by_cases h2 : b.toNat < c.toNat
    · have : a.toNat < c.toNat := by omega
      simp [this]
    · simp only [if_pos h1] at h
      by_cases h3 : c.toNat < b.toNat
      · simp [h2, h3] at h'
      · have hbc : b = c := charToNat_inj (by omega)
        subst hbc
        simp [h1]
    · simp only [if_pos h2] at h'
      by_cases h3 : b.toNat < a.toNat
      · simp [h1, h3] at h
      · have hab : a = b := charToNat_inj (by omega)
        subst hab
        simp [h2]
    · by_cases h3 : b.toNat < a.toNat
      · simp [h1, h3] at h
      · by_cases h4 : c.toNat < b.toNat
        · simp [h2, h4] at h'
        · have hab : a = b := charToNat_inj (by omega)
          have hbc : b = c := charToNat_inj (by omega)
          subst hab; subst hbc
          simp only [if_neg h1, if_neg h3] at h
          simp only [if_neg h2, if_neg h4] at h'
          simp only [Nat.lt_irrefl, if_neg (Nat.lt_irrefl _)]
          exact ltStr_trans h h'

theorem ltStr_ne {a b : Str} (h : ltStr a b = true) : a ≠ b := by
  intro hab
  subst hab
  rw [ltStr_irrefl] at h
  exact Bool.false_ne_true h

/-! ### Properties of the map operations -/
theorem mem_mapInsert {k : Str} {v : α} :
    ∀ {l : List (Str × α)} {p}, p ∈ mapInsert k v l → p ∈ l ∨ p = (k, v)
  | [], p, h => by
    simp [mapInsert] at h
    exact Or.inr h
  | (k', v') :: rest, p, h => by
    simp only [mapInsert] at h
    by_cases h1 : ltStr k k' = true
    · simp only [if_pos h1] at h
      rcases List.mem_cons.mp h with rfl | h
      · exact Or.inr rfl
      · exact Or.inl h
    · by_cases h2 : ltStr k' k = true
      · simp only [if_neg h1, if_pos h2, List.mem_cons] at h
        rcases h with h | h
        · exact Or.inl (by rw [h]; exact List.mem_cons_self _ _)
        · rcases mem_mapInsert h with h' | h'
          · exact Or.inl (List.mem_cons_of_mem _ h')
          · exact Or.inr h'
      · simp only [if_neg h1, if_neg h2] at h
        exact Or.inl h

theorem mapInsert_sorted {k : Str} {v : α} :
    ∀ {l : List (Str × α)}, SortedMap l → SortedMap (mapInsert k v l)
  | [], _ => by simp [mapInsert, SortedMap]
  | (k', v') :: rest, h => by
    have hrest : SortedMap rest := (List.pairwise_cons.mp h).2
    have hhead : ∀ q ∈ rest, keyLt (k', v') q := (List.pairwise_cons.mp h).1
    simp only [mapInsert]
    by_cases h1 : ltStr k k' = true
    · simp only [if_pos h1]
      refine List.pairwise_cons.mpr ⟨?_, h⟩
      intro q hq
      rcases List.mem_cons.mp hq with rfl | hq'
      · exact h1
      · exact ltStr_trans h1 (hhead q hq')
    · by_cases h2 : ltStr k' k = true
      · simp only [if_neg h1, if_pos h2]
        refine List.pairwise_cons.mpr ⟨?_, mapInsert_sorted hrest⟩
        intro q hq
        rcases mem_mapInsert hq with hq' | rfl
        · exact hhead q hq'
        · exact h2
      · simp only [if_neg h1, if_neg h2]
        exact h

theorem mapInsert_of_lt_all {k : Str} {v : α} :
    ∀ {l : List (Str × α)}, (∀ p ∈ l, ltStr p.1 k = true) →
      mapInsert k v l = l ++ [(k, v)]
  | [], _ => rfl
  | (k', v') :: rest, h => by
    have h2 : ltStr k' k = true := h (k', v') (List.mem_cons_self _ _)
    have h1 : ltStr k k' = false := ltStr_asymm h2
    simp only [mapInsert, h1, h2, Bool.false_eq_true, if_false, if_true, List.cons_append,
      List.cons.injEq, true_and]
    exact mapInsert_of_lt_all fun p hp => h p (List.mem_cons_of_mem _ hp)

theorem mapInsert_of_found_prefix {k : Str} {v w : α} {l2 : List (Str × α)} :
    ∀ {l1 : List (Str × α)}, (∀ p ∈ l1, ltStr p.1 k = true) →
      mapInsert k v (l1 ++ (k, w) :: l2) = l1 ++ (k, w) :: l2
  | [], _ => by
    simp [mapInsert, ltStr_irrefl]
  | (k', v') :: rest, h => by
    have h2 : ltStr k' k = true := h (k', v') (List.mem_cons_self _ _)
    have h1 : ltStr k k' = false := ltStr_asymm h2
    simp only [List.cons_append, mapInsert, h1, h2, Bool.false_eq_true, if_false, if_true,
      List.cons.injEq, true_and]
    exact mapInsert_of_found_prefix fun p hp => h p (List.mem_cons_of_mem _ hp)

theorem mapFind_some_split {k : Str} {w : α} :
    ∀ {l : List (Str × α)}, SortedMap l → mapFind k l = some w →
      ∃ l1 l2, l = l1 ++ (k, w) :: l2 ∧ ∀ p ∈ l1, ltStr p.1 k = true
  | [], _, h => by simp [mapFind] at h
  | (k', v') :: rest, hs, h => by
    simp only [mapFind] at h
    by_cases hk : k = k'
    · subst hk
      rw [if_pos rfl] at h
      injection h with h
      subst h
      exact ⟨[], rest, rfl, by simp⟩
    · simp only [if_neg hk] at h
      have hrest : SortedMap rest := (List.pairwise_cons.mp hs).2
      obtain ⟨l1, l2, hsplit, hlt⟩ := mapFind_some_split hrest h
      refine ⟨(k', v') :: l1, l2, by simp [hsplit], ?_⟩
      intro p hp
      rcases List.mem_cons.mp hp with rfl | hp'
      · have : (k, w) ∈ rest := hsplit ▸ List.mem_append_right _ (List.mem_cons_self _ _)
        exact (List.pairwise_cons.mp hs).1 (k, w) this
      · exact hlt p hp'

theorem mapInsert_id_of_found {k : Str} {v w : α} {l : List (Str × α)}
    (hs : SortedMap l) (h : mapFind k l = some w) : mapInsert k v l = l := by
  obtain ⟨l1, l2, rfl, hlt⟩ := mapFind_some_split hs h
  exact mapInsert_of_found_prefix hlt

theorem mapFind_eq_none_of_ne {k : Str} :
    ∀ {l : List (Str × α)}, (∀ p ∈ l, p.1 ≠ k) → mapFind k l = none
  | [], _ => rfl
  | (k', v') :: rest, h => by
    have : k ≠ k' := fun hk => h (k', v') (List.mem_cons_self _ _) hk.symm
    simp only [mapFind, if_neg this]
    exact mapFind_eq_none_of_ne fun p hp => h p (List.mem_cons_of_mem _ hp)

theorem mapFind_append_of_ne {k : Str} {l2 : List (Str × α)} :
    ∀ {l1 : List (Str × α)}, (∀ p ∈ l1, p.1 ≠ k) →
      mapFind k (l1 ++ l2) = mapFind k l2
  | [], _ => rfl
  | (k', v') :: rest, h => by
    have : k ≠ k' := fun hk => h (k', v') (List.mem_cons_self _ _) hk.symm
    simp only [List.cons_append, mapFind, if_neg this]
    exact mapFind_append_of_ne fun p hp => h p (List.mem_cons_of_mem _ hp)

theorem mapSet_append_of_ne {k : Str} {v : α} {w : α} {l2 : List (Str × α)} :
    ∀ {l1 : List (Str × α)}, (∀ p ∈ l1, p.1 ≠ k) →
      mapSet k v (l1 ++ (k, w) :: l2) = l1 ++ (k, v) :: l2
  | [], _ => by simp [mapSet]
  | (k', v') :: rest, h => by
    have : k ≠ k' := fun hk => h (k', v') (List.mem_cons_self _ _) hk.symm
    simp only [List.cons_append, mapSet, if_neg this, List.cons.injEq, true_and]
    exact mapSet_append_of_ne fun p hp => h p (List.mem_cons_of_mem _ hp)

theorem mapSet_keys {k : Str} {v : α} :
    ∀ (l : List (Str × α)), (mapSet k v l).map Prod.fst = l.map Prod.fst
  | [] => rfl
  | (k', v') :: rest => by
    simp only [mapSet]
    by_cases hk : k = k'
    · simp [hk]
    · simp only [if_neg hk, List.map_cons]
      rw [mapSet_keys rest]

theorem sortedMap_iff_keys {l : List (Str × α)} :
    SortedMap l ↔ (l.map Prod.fst).Pairwise (fun a b => ltStr a b = true) := by
  rw [SortedMap, List.pairwise_map]
  rfl

theorem mapSet_sorted {k : Str} {v : α} {l : List (Str × α)}
    (hs : SortedMap l) : SortedMap (mapSet k v l) := by
  rw [sortedMap_iff_keys, mapSet_keys]
  exact sortedMap_iff_keys.mp hs

theorem mem_mapSet {k : Str} {v : α} :
    ∀ {l : List (Str × α)} {p}, p ∈ mapSet k v l → p ∈ l ∨ (p.1 = k ∧ p.2 = v)
  | [], p, h => by simp [mapSet] at h
  | (k', v') :: rest, p, h => by
    simp only [mapSet] at h
    by_cases hk : k = k'
    · simp only [if_pos hk, List.mem_cons] at h
      rcases h with rfl | h'
      · exact Or.inr ⟨hk.symm, rfl⟩
      · exact Or.inl (List.mem_cons_of_mem _ h')
    · simp only [if_neg hk, List.mem_cons] at h
      rcases h with rfl | h'
      · exact Or.inl (List.mem_cons_self _ _)
      · rcases mem_mapSet h' with h'' | h''
        · exact Or.inl (List.mem_cons_of_mem _ h'')
        · exact Or.inr h''

/-! ### Properties of trimming -/
theorem dropWhile_head_false {p : Char → Bool} :
    ∀ {l : Str} {c : Char} {r : Str}, l.dropWhile p = c :: r → p c = false
  | [], _, _, h => by simp [List.dropWhile] at h
  | a :: as, c, r, h => by
    by_cases hp : p a
    · rw [List.dropWhile_cons_of_pos hp] at h
      exact dropWhile_head_false h
    · rw [List.dropWhile_cons_of_neg hp] at h
      cases h
      cases hpc : p a with
      | false => rfl
      | true => exact absurd hpc hp

theorem ltrim_head_false {s : Str} {c : Char} {r : Str}
    (h : ltrim s = c :: r) : isSpaceC c = false :=
  dropWhile_head_false h

theorem ltrim_cons_of_not_space {c : Char} {l : Str} (h : isSpaceC c = false) :
    ltrim (c :: l) = c :: l := by
  simp [ltrim, List.dropWhile_cons, h]

theorem rtrim_concat_of_not_space {c : Char} {l : Str} (h : isSpaceC c = false) :
    rtrim (l ++ [c]) = l ++ [c] := by
  simp [rtrim, List.reverse_append, List.dropWhile_cons, h]

theorem rtrim_cons (c : Char) (l : Str) :
    rtrim (c :: l) =
      if rtrim l = [] then (if isSpaceC c then [] else [c]) else c :: rtrim l := by
  simp only [rtrim, List.reverse_cons, List.dropWhile_append]
  by_cases h : (l.reverse.dropWhile isSpaceC).isEmpty
  · rw [if_pos h]
    have h' : l.reverse.dropWhile isSpaceC = [] := List.isEmpty_iff.mp h
    rw [h']
    simp only [List.reverse_nil, if_pos rfl, List.dropWhile_cons, List.dropWhile_nil]
    by_cases hc : isSpaceC c
    · simp [hc]
    · simp [hc]
  · rw [if_neg h]
    have h' : l.reverse.dropWhile isSpaceC ≠ [] := fun he => h (by simp [he])
    have h'' : (l.reverse.dropWhile isSpaceC).reverse ≠ [] := by
      simpa using h'
    rw [if_neg h'']
    simp

theorem rtrim_head? {l : Str} (h : rtrim l ≠ []) : (rtrim l).head? = l.head? := by
  induction l with
  | nil => simp [rtrim] at h
  | cons c l ih =>
    rw [rtrim_cons] at h ⊢
    by_cases he : rtrim l = []
    · rw [if_pos he] at h ⊢
      by_cases hc : isSpaceC c
      · rw [if_pos hc] at h
        exact absurd rfl h
      · rw [if_neg hc]
        simp
    · rw [if_neg he] at h ⊢
      simp

theorem trimC_head_false {s : Str} {c : Char} {r : Str}
    (h : trimC s = c :: r) : isSpaceC c = false := by
  have hne : rtrim (ltrim s) ≠ [] := by
    intro he
    rw [trimC, he] at h
    cases h
  have h1 : (rtrim (ltrim s)).head? = (ltrim s).head? := rtrim_head? hne
  rw [trimC] at h
  rw [h] at h1
  match he : ltrim s with
  | [] => rw [he] at h1; simp at h1
  | c' :: r' =>
    rw [he] at h1
    simp only [List.head?_cons, Option.some.injEq] at h1
    rw [h1]
    exact ltrim_head_false he

theorem dropWhile_eq_self_head {p : Char → Bool} {c : Char} {r : Str}
    (h : (c :: r).dropWhile p = c :: r) : p c = false := by
  by_cases hp : p c = true
  · rw [List.dropWhile_cons_of_pos hp] at h
    have h1 : (r.dropWhile p).length = r.length + 1 := by rw [h]; simp
    have h2 : (r.dropWhile p).length ≤ r.length := List.Sublist.length_le (List.dropWhile_sublist _)
    omega
  · cases hpc : p c with
    | false => rfl
    | true => exact absurd hpc hp

theorem ltrim_self_head {c : Char} {r : Str} (h : ltrim (c :: r) = c :: r) :
    isSpaceC c = false :=
  dropWhile_eq_self_head h

theorem rtrim_self_last {l : Str} {c : Char} (h : rtrim l = l) (hl : l.getLast? = some c) :
    isSpaceC c = false := by
  have h1 : l.reverse.dropWhile isSpaceC = l.reverse := by
    have := congrArg List.reverse h
    rwa [rtrim, List.reverse_reverse] at this
  match he : l.reverse with
  | [] =>
    rw [List.getLast?_eq_head?_reverse, he] at hl
    simp at hl
  | c' :: r' =>
    rw [List.getLast?_eq_head?_reverse, he] at hl
    simp only [List.head?_cons, Option.some.injEq] at hl
    rw [he] at h1
    rw [← hl]
    exact dropWhile_eq_self_head h1

/-- A line whose first and last characters are not whitespace is left
unchanged by the trimming at the top of the parse loop. -/
theorem trimC_eq_self {c d : Char} {l : Str}
    (hc : isSpaceC c = false) (hd : isSpaceC d = false)
    (h : (c :: l).getLast? = some d) : trimC (c :: l) = c :: l := by
  rw [trimC, ltrim_cons_of_not_space hc]
  obtain ⟨l', hl'⟩ := List.getLast?_eq_some_iff.mp h
  rw [hl']
  exact rtrim_concat_of_not_space hd

/-! ### Case analysis of one parse step -/
/-- An empty (after trimming) line leaves the state unchanged. -/
theorem parseLineCore_nil (st : ParseState) : parseLineCore st [] = st := rfl

/-- Unfolding of one parse step on a nonempty trimmed line. -/
theorem parseLineCore_cons (st : ParseState) (front : Char) (rest : Str) :
    parseLineCore st (front :: rest) =
      (if front = ';' then st
       else if front = '[' then
         if (front :: rest).getLast? = some ']' then
           { st with sect := ((front :: rest).drop 1).dropLast }
         else { st with errors := st.errors ++ [front :: rest] }
       else
         match List.findIdx? (fun c => c = '=') (front :: rest) with
         | some p =>
           if p ≠ 0 then
             if mapFind (rtrim ((front :: rest).take p)) ((mapFind st.sect (mapInsert st.sect ([] : Section) st.sections)).getD []) = none then
               { st with sections := mapSet st.sect (mapInsert (rtrim ((front :: rest).take p)) (ltrim ((front :: rest).drop (p + 1))) ((mapFind st.sect (mapInsert st.sect ([] : Section) st.sections)).getD [])) (mapInsert st.sect ([] : Section) st.sections) }
             else { st with sections := mapInsert st.sect ([] : Section) st.sections, errors := st.errors ++ [front :: rest] }
           else { st with errors := st.errors ++ [front :: rest] }
         | none => { st with errors := st.errors ++ [front :: rest] }) := rfl

theorem parseLineCore_header (st : ParseState) (mid : Str) :
    parseLineCore st ('[' :: mid ++ [']']) = { st with sect := mid } := by
  have hlast : ('[' :: mid ++ [']']).getLast? = some ']' := by
    rw [show ('[' :: mid ++ [']']) = ('[' :: mid) ++ [']'] by simp]
    exact List.getLast?_concat _
  rw [show ('[' :: mid ++ [']'] : Str) = '[' :: (mid ++ [']']) by simp]
  rw [parseLineCore_cons]
  rw [if_neg (by decide : ¬ ('[' : Char) = ';'), if_pos rfl]
  rw [show ('[' :: (mid ++ [']'])).getLast? = some ']' from hlast]
  rw [if_pos rfl]
  simp

theorem parseLineCore_comment (st : ParseState) (rest : Str) :
    parseLineCore st (';' :: rest) = st := by
  rw [parseLineCore_cons, if_pos rfl]

theorem parseLineCore_header_bad (st : ParseState) (rest : Str)
    (h : ('[' :: rest).getLast? ≠ some ']') :
    parseLineCore st ('[' :: rest) = { st with errors := st.errors ++ ['[' :: rest] } := by
  rw [parseLineCore_cons]
  rw [if_neg (by decide : ¬ ('[' : Char) = ';'), if_pos rfl, if_neg h]

theorem findIdx?_sep {k : Str} (v : Str) (h : ('=' : Char) ∉ k) :
    ∀ i, List.findIdx? (fun c => c = '=') (k ++ '=' :: v) i = some (i + k.length) := by
  induction k with
  | nil =>
    intro i
    simp [List.findIdx?]
  | cons c k' ih =>
    intro i
    have hc : ¬ (c = '=') := fun hc => h (hc ▸ List.mem_cons_self _ _)
    have h' : ('=' : Char) ∉ k' := fun hm => h (List.mem_cons_of_mem _ hm)
    simp only [List.cons_append, List.findIdx?, List.append_eq]
    rw [if_neg (by simpa using hc)]
    rw [ih h' (i + 1)]
    congr 1
    simp only [List.length_cons]
    omega

theorem parseLineCore_kv (st : ParseState) (c : Char) (k' v : Str)
    (hc1 : c ≠ ';') (hc2 : c ≠ '[') (heq : ('=' : Char) ∉ (c :: k'))
    (hrt : rtrim (c :: k') = c :: k') (hlt : ltrim v = v) :
    parseLineCore st ((c :: k') ++ '=' :: v) =
      (if mapFind (c :: k') ((mapFind st.sect (mapInsert st.sect ([] : Section) st.sections)).getD []) = none then
        { st with sections := mapSet st.sect (mapInsert (c :: k') v ((mapFind st.sect (mapInsert st.sect ([] : Section) st.sections)).getD [])) (mapInsert st.sect ([] : Section) st.sections) }
      else { st with sections := mapInsert st.sect ([] : Section) st.sections, errors := st.errors ++ [(c :: k') ++ '=' :: v] }) := by
  have hfind := findIdx?_sep v heq 0
  have htake : ((c :: k') ++ '=' :: v).take (c :: k').length = c :: k' :=
    List.take_left _ _
  have hdrop : ((c :: k') ++ '=' :: v).drop ((c :: k').length + 1) = v := by
    rw [show (c :: k') ++ '=' :: v = ((c :: k') ++ ['=']) ++ v by simp]
    rw [show (c :: k').length + 1 = ((c :: k') ++ ['=']).length by simp]
    exact List.drop_left _ _
  rw [show ((c :: k') ++ '=' :: v : Str) = c :: (k' ++ '=' :: v) by simp]
  rw [parseLineCore_cons]
  rw [if_neg hc1, if_neg hc2]
  rw [show (c :: (k' ++ '=' :: v) : Str) = (c :: k') ++ '=' :: v by simp]
  rw [hfind]
  have hp0 : (0 + (c :: k').length ≠ 0) := by simp
  simp only [hp0, ne_eq, not_false_eq_true, if_true, Nat.zero_add]
  rw [htake, hrt, hdrop, hlt]
  rw [if_pos (show ¬(c :: k').length = 0 by simp)]

/-- General form of the `key=value` step: the line splits at its first
`=`, the stored key is the right-trimmed text before it and the stored
value the left-trimmed text after it (no assumption that the raw key
and value carry no whitespace next to the separator). -/
theorem parseLineCore_kv2 (st : ParseState) (c : Char) (k' v : Str)
    (hc1 : c ≠ ';') (hc2 : c ≠ '[') (heq : ('=' : Char) ∉ (c :: k')) :
    parseLineCore st ((c :: k') ++ '=' :: v) =
      (if mapFind (rtrim (c :: k')) ((mapFind st.sect (mapInsert st.sect ([] : Section) st.sections)).getD []) = none then
        { st with sections := mapSet st.sect (mapInsert (rtrim (c :: k')) (ltrim v) ((mapFind st.sect (mapInsert st.sect ([] : Section) st.sections)).getD [])) (mapInsert st.sect ([] : Section) st.sections) }
      else { st with sections := mapInsert st.sect ([] : Section) st.sections, errors := st.errors ++ [(c :: k') ++ '=' :: v] }) := by
  have hfind := findIdx?_sep v heq 0
  have htake : ((c :: k') ++ '=' :: v).take (c :: k').length = c :: k' :=
    List.take_left _ _
  have hdrop : ((c :: k') ++ '=' :: v).drop ((c :: k').length + 1) = v := by
    rw [show (c :: k') ++ '=' :: v = ((c :: k') ++ ['=']) ++ v by simp]
    rw [show (c :: k').length + 1 = ((c :: k') ++ ['=']).length by simp]
    exact List.drop_left _ _
  rw [show ((c :: k') ++ '=' :: v : Str) = c :: (k' ++ '=' :: v) by simp]
  rw [parseLineCore_cons]
  rw [if_neg hc1, if_neg hc2]
  rw [show (c :: (k' ++ '=' :: v) : Str) = (c :: k') ++ '=' :: v by simp]
  rw [hfind]
  have hp0 : (0 + (c :: k').length ≠ 0) := by simp
  simp only [hp0, ne_eq, not_false_eq_true, if_true, Nat.zero_add]
  rw [htake, hdrop]
  rw [if_pos (show ¬(c :: k').length = 0 by simp)]

/-! ### The parse invariant: sorted sections, nonempty, keys wellformed -/
theorem mapInsert_ne_nil {k : Str} {v : α} : ∀ (l : List (Str × α)), mapInsert k v l ≠ []
  | [] => by simp [mapInsert]
  | (k', v') :: rest => by
    simp only [mapInsert]
    by_cases h1 : ltStr k k' = true
    · simp [h1]
    · by_cases h2 : ltStr k' k = true
      · simp [h1, h2]
      · simp [h1, h2]

theorem mapFind_mapInsert_self {k : Str} {v : α} :
    ∀ {l : List (Str × α)}, SortedMap l →
      mapFind k (mapInsert k v l) = some ((mapFind k l).getD v)
  | [], _ => by simp [mapInsert, mapFind]
  | (k', v') :: rest, hs => by
    have hrest : SortedMap rest := (List.pairwise_cons.mp hs).2
    have hhead : ∀ q ∈ rest, keyLt (k', v') q := (List.pairwise_cons.mp hs).1
    simp only [mapInsert]
    by_cases h1 : ltStr k k' = true
    · have hne : k ≠ k' := ltStr_ne h1
      have hnone : mapFind k rest = none := by
        apply mapFind_eq_none_of_ne
        intro p hp hpk
        have := hhead p hp
        have h2 : ltStr k p.1 = true := ltStr_trans h1 this
        exact ltStr_ne h2 hpk.symm
      simp [h1, mapFind, hne, hnone]
    · by_cases h2 : ltStr k' k = true
      · have hne : k ≠ k' := fun he => ltStr_ne h2 he.symm
        simp only [if_neg h1, if_pos h2, mapFind, if_neg hne]
        exact mapFind_mapInsert_self hrest
      · have heq : k = k' :=
          ltStr_eq_of_not_lt (Bool.not_eq_true _ ▸ h1) (Bool.not_eq_true _ ▸ h2)
        subst heq
        simp [mapFind, ltStr_irrefl]

theorem rtrim_cons_facts {c : Char} {l : Str} (hc : isSpaceC c = false) :
    rtrim (c :: l) ≠ [] ∧ (rtrim (c :: l)).head? = some c := by
  rw [rtrim_cons]
  by_cases he : rtrim l = []
  · rw [if_pos he, hc]
    simp
  · rw [if_neg he]
    simp

theorem stInv_initState : StInv initState := by
  constructor
  · exact List.Pairwise.nil
  · intro p hp
    simp [initState] at hp

theorem stInv_parseLine {st : ParseState} (raw : Str) (h : StInv st) :
    StInv (parseLine st raw) := by
  rw [parseLine]
  match ht : trimC raw with
  | [] => exact h
  | front :: rest =>
    have hfront : isSpaceC front = false := trimC_head_false ht
    rw [parseLineCore_cons]
    by_cases hc : front = ';'
    · rw [if_pos hc]; exact h
    rw [if_neg hc]
    by_cases hb : front = '['
    · rw [if_pos hb]
      by_cases hl : (front :: rest).getLast? = some ']'
      · rw [if_pos hl]; exact h
      · rw [if_neg hl]; exact h
    rw [if_neg hb]
    split
    · rename_i p hfi
      by_cases hp : p = 0
      · rw [if_neg (show ¬ p ≠ 0 by simp [hp])]
        exact h
      rw [if_pos (show p ≠ 0 from hp)]
      set varName := rtrim ((front :: rest).take p) with hvar
      set value := ltrim ((front :: rest).drop (p + 1)) with hval
      set ss1 := mapInsert st.sect ([] : Section) st.sections with hss1
      set sec := (mapFind st.sect ss1).getD [] with hsec
      -- facts about varName
      obtain ⟨q, hq⟩ : ∃ q, p = q + 1 := ⟨p - 1, by omega⟩
      have htk : (front :: rest).take p = front :: rest.take q := by
        rw [hq]; rfl
      have hvfacts : varName ≠ [] ∧ varName.head? = some front := by
        rw [hvar, htk]
        exact rtrim_cons_facts hfront
      have hvne : varName ≠ [] := hvfacts.1
      have hvhead : varName.head? ≠ some ';' := by
        rw [hvfacts.2]
        intro hcon
        exact hc (by injection hcon)
      -- facts about ss1 and sec
      have hs1 : SortedMap ss1 := mapInsert_sorted h.1
      have hfs : mapFind st.sect ss1 = some ((mapFind st.sect st.sections).getD []) := by
        rw [hss1]
        exact mapFind_mapInsert_self h.1
      have hsec_eq : sec = (mapFind st.sect st.sections).getD [] := by
        rw [hsec, hfs]
        rfl
      have hsec_mem : ∀ kv ∈ sec, kv.1 ≠ [] ∧ kv.1.head? ≠ some ';' := by
        intro kv hkv
        cases hold : mapFind st.sect st.sections with
        | none =>
          rw [hsec_eq, hold] at hkv
          simp at hkv
        | some sec0 =>
          obtain ⟨l1, l2, hsplit, -⟩ := mapFind_some_split h.1 hold
          have : (st.sect, sec0) ∈ st.sections := by
            rw [hsplit]
            exact List.mem_append_right _ (List.mem_cons_self _ _)
          have hinv := (h.2 _ this).2.2
          rw [hsec_eq, hold] at hkv
          exact hinv kv hkv
      have hsec_sorted : SortedMap sec := by
        cases hold : mapFind st.sect st.sections with
        | none =>
          rw [hsec_eq, hold]
          exact List.Pairwise.nil
        | some sec0 =>
          obtain ⟨l1, l2, hsplit, -⟩ := mapFind_some_split h.1 hold
          have : (st.sect, sec0) ∈ st.sections := by
            rw [hsplit]
            exact List.mem_append_right _ (List.mem_cons_self _ _)
          have hinv := (h.2 _ this).2.1
          rw [hsec_eq, hold]
          exact hinv
      by_cases hdup : mapFind varName sec = none
      · rw [if_pos hdup]
        -- split ss1 around st.sect and rewrite the mapSet
        obtain ⟨l1, l2, hsplit, hlt1⟩ := mapFind_some_split hs1 hfs
        have hl1ne : ∀ p_1 ∈ l1, p_1.1 ≠ st.sect := fun p1 hp1 => ltStr_ne (hlt1 p1 hp1)
        have hset : mapSet st.sect (mapInsert varName value sec) ss1 =
            l1 ++ (st.sect, mapInsert varName value sec) :: l2 := by
          rw [hsplit, ← hsec_eq]
          rw [show ((mapFind st.sect st.sections).getD [] : Section) = sec from hsec_eq.symm] at hsplit
          exact mapSet_append_of_ne hl1ne
        constructor
        · rw [hset]
          have : SortedMap (l1 ++ (st.sect, sec) :: l2) := by
            rw [hsec_eq, ← hsplit]
            exact hs1
          rw [sortedMap_iff_keys] at this ⊢
          simpa using this
        · intro pr hpr
          rw [hset] at hpr
          have hmem_ss1 : ∀ q, q ∈ l1 ∨ q ∈ l2 → q ∈ st.sections ∨ q = (st.sect, ([] : Section)) := by
            intro q hq
            have hq1 : q ∈ ss1 := by
              rw [hsplit]
              rcases hq with hq | hq
              · exact List.mem_append_left _ hq
              · exact List.mem_append_right _ (List.mem_cons_of_mem _ hq)
            exact mem_mapInsert hq1
          have hkey_ne : ∀ q, q ∈ l1 ∨ q ∈ l2 → q.1 ≠ st.sect := by
            intro q hq
            rcases hq with hq | hq
            · exact hl1ne q hq
            · have hsrt : SortedMap (l1 ++ (st.sect, sec) :: l2) := by
                rw [hsec_eq, ← hsplit]; exact hs1
              rw [SortedMap, List.pairwise_append] at hsrt
              have := (List.pairwise_cons.mp hsrt.2.1).1 q hq
              exact fun he => ltStr_ne this he.symm
          rcases List.mem_append.mp hpr with hpr1 | hpr2
          · have hold : pr ∈ st.sections := by
              rcases hmem_ss1 pr (Or.inl hpr1) with h' | h'
              · exact h'
              · exact absurd (congrArg Prod.fst h') (by simpa using hkey_ne pr (Or.inl hpr1))
            exact h.2 pr hold
          · rcases List.mem_cons.mp hpr2 with rfl | hpr3
            · refine ⟨mapInsert_ne_nil _, mapInsert_sorted hsec_sorted, ?_⟩
              intro kv hkv
              rcases mem_mapInsert hkv with hkv' | rfl
              · exact hsec_mem kv hkv'
              · exact ⟨hvne, hvhead⟩
            · have hold : pr ∈ st.sections := by
                rcases hmem_ss1 pr (Or.inr hpr3) with h' | h'
                · exact h'
                · exact absurd (congrArg Prod.fst h') (by simpa using hkey_ne pr (Or.inr hpr3))
              exact h.2 pr hold
      · rw [if_neg hdup]
        -- duplicate branch: the section must already exist, ss1 = sections
        have hold : ∃ sec0, mapFind st.sect st.sections = some sec0 := by
          cases holdc : mapFind st.sect st.sections with
          | none =>
            exfalso
            rw [hsec_eq, holdc] at hdup
            simp [mapFind] at hdup
          | some sec0 => exact ⟨sec0, rfl⟩
        obtain ⟨sec0, hold⟩ := hold
        have : ss1 = st.sections := by
          rw [hss1]
          exact mapInsert_id_of_found h.1 hold
        rw [this]
        exact h
    · exact h

theorem stInv_foldl {st : ParseState} (lines : List Str) (h : StInv st) :
    StInv (lines.foldl parseLine st) := by
  induction lines generalizing st with
  | nil => exact h
  | cons l ls ih =>
    rw [List.foldl_cons]
    exact ih (stInv_parseLine l h)

theorem stInv_parseLs (lines : List Str) : StInv (parseLs lines) :=
  stInv_foldl lines stInv_initState

/-! ### Claim C1: section header handling -/
/-- C1 is refuted at the single-line input `"[a]"`: parse sets the
current section name to `"a"` but the resulting Document has no Section
entry at all, while the claim asserts a Section entry for that name is
ensured to exist. -/
theorem claim1_counterexample :
    (parseLs [['[', 'a', ']']]).sect = ['a'] ∧
    (parseLs [['[', 'a', ']']]).sections = [] ∧
    mapFind ['a'] (parseLs [['[', 'a', ']']]).sections = none := by
  decide

/-- C1 (amended): for every input line that, after trimming, has `[` as
its first character and `]` as its last character, parse sets the
current section name to the substring between the brackets (possibly
empty); it does not create a Section entry for that name — the sections
map and the error log are left unchanged (an entry appears only when a
key-value line is later parsed under that name). -/
theorem claim1_theorem (st : ParseState) (raw mid : Str)
    (h : trimC raw = '[' :: mid ++ [']']) :
    parseLine st raw = { st with sect := mid } := by
  rw [parseLine, h]
  exact parseLineCore_header st mid

/-- Witness for C1 (amended) at the raw line `" [a]"`. -/
theorem claim1_witness :
    trimC [' ', '[', 'a', ']'] = '[' :: ['a'] ++ [']'] ∧
    parseLine initState [' ', '[', 'a', ']'] = { initState with sect := ['a'] } :=
  ⟨by decide, claim1_theorem initState [' ', '[', 'a', ']'] ['a'] (by decide)⟩

/-! ### Claim C4: malformed header handling -/
/-- C4: a trimmed nonempty line whose first character is `[` but whose
last character is not `]` is appended verbatim to the error log, the
current section name and the sections map are unchanged, and parsing
continues with the subsequent lines from that state (no abort). -/
theorem claim4_theorem (st : ParseState) (raw rest : Str) (more : List Str)
    (h : trimC raw = '[' :: rest) (hb : ('[' :: rest).getLast? ≠ some ']') :
    parseLine st raw = { st with errors := st.errors ++ ['[' :: rest] } ∧
    List.foldl parseLine st (raw :: more) =
      List.foldl parseLine { st with errors := st.errors ++ ['[' :: rest] } more := by
  have h1 : parseLine st raw = { st with errors := st.errors ++ ['[' :: rest] } := by
    rw [parseLine, h]
    exact parseLineCore_header_bad st rest hb
  refine ⟨h1, ?_⟩
  rw [List.foldl_cons, h1]

/-- Witness for C4 at the raw line `"[s"` followed by one more line. -/
theorem claim4_witness :
    trimC ['[', 's'] = '[' :: ['s'] ∧ (('[' :: ['s']).getLast? ≠ some ']') ∧
    parseLine initState ['[', 's'] =
      { initState with errors := initState.errors ++ [['[', 's']] } ∧
    List.foldl parseLine initState [['[', 's'], ['a', '=', 'b']] =
      List.foldl parseLine
        { initState with errors := initState.errors ++ [['[', 's']] } [['a', '=', 'b']] := by
  refine ⟨by decide, by decide, ?_, ?_⟩
  · exact (claim4_theorem initState ['[', 's'] ['s'] [['a', '=', 'b']] (by decide) (by decide)).1
  · exact (claim4_theorem initState ['[', 's'] ['s'] [['a', '=', 'b']] (by decide) (by decide)).2

/-! ### Claim C3: duplicate keys -/
/-- C3: for any second `key=value` line (its trimmed form splits at its
first `=` into a nonempty, non-comment, non-header raw key and a raw
value, whitespace around the separator allowed) whose right-trimmed key
is already bound in the current section, parse appends the trimmed line
verbatim to the error log, leaves the Document (sections map and
current section name) unchanged, and the first value is still the one
stored. -/
theorem claim3_theorem (st : ParseState) (raw : Str) (c : Char) (k' v v0 : Str) (sec : Section)
    (h : trimC raw = (c :: k') ++ '=' :: v)
    (hc1 : c ≠ ';') (hc2 : c ≠ '[') (heq : ('=' : Char) ∉ (c :: k'))
    (hsort : SortedMap st.sections)
    (hfind : mapFind st.sect st.sections = some sec)
    (hdup : mapFind (rtrim (c :: k')) sec = some v0) :
    parseLine st raw = { st with errors := st.errors ++ [(c :: k') ++ '=' :: v] } ∧
    mapFind (rtrim (c :: k'))
      ((mapFind st.sect (parseLine st raw).sections).getD []) = some v0 := by
  have hins : mapInsert st.sect ([] : Section) st.sections = st.sections :=
    mapInsert_id_of_found hsort hfind
  have hkv := parseLineCore_kv2 st c k' v hc1 hc2 heq
  rw [hins, hfind] at hkv
  simp only [Option.getD_some] at hkv
  rw [if_neg (by simp [hdup])] at hkv
  have h1 : parseLine st raw = { st with errors := st.errors ++ [(c :: k') ++ '=' :: v] } := by
    rw [parseLine, h, hkv]
  refine ⟨h1, ?_⟩
  rw [h1]
  simp only [hfind, Option.getD_some, hdup]

/-- Witness for C3: in section `""` the key `a` is first bound to `1`
by the line `"a=1"`; the duplicate line `"a = 2"` — whitespace around
the separator — is rejected, logged verbatim, and `a` still maps to
`1`. -/
theorem claim3_witness :
    (trimC ['a', ' ', '=', ' ', '2'] = ('a' :: [' ']) ++ '=' :: [' ', '2']) ∧
    (mapFind [] (parseLs [['a', '=', '1']]).sections = some [(['a'], ['1'])]) ∧
    (parseLine (parseLs [['a', '=', '1']]) ['a', ' ', '=', ' ', '2'] =
      { parseLs [['a', '=', '1']] with
        errors := (parseLs [['a', '=', '1']]).errors ++ [('a' :: [' ']) ++ '=' :: [' ', '2']] }) ∧
    mapFind (rtrim ('a' :: [' ']))
      ((mapFind (parseLs [['a', '=', '1']]).sect
        (parseLine (parseLs [['a', '=', '1']]) ['a', ' ', '=', ' ', '2']).sections).getD []) =
      some ['1'] := by
  have hfind : mapFind (parseLs [['a', '=', '1']]).sect (parseLs [['a', '=', '1']]).sections =
      some [(['a'], ['1'])] := by decide
  have h := claim3_theorem (parseLs [['a', '=', '1']]) ['a', ' ', '=', ' ', '2'] 'a' [' ']
    [' ', '2'] ['1'] [(['a'], ['1'])] (by decide) (by decide) (by decide) (by decide)
    (by decide) hfind (by decide)
  exact ⟨by decide, by decide, h.1, h.2⟩

/-! ### Claim C2: storage and serialization order -/
/-- C2 is refuted at the two-line input `"b=1"`, `"a=2"`: the keys were
inserted in the order `b`, `a`, but generate emits `a=2` before `b=1`
(the map is sorted by key), not in insertion order. -/
theorem claim2_counterexample :
    generate (parseLs [['b', '=', '1'], ['a', '=', '2']]).sections =
      ['[', ']', '\n', 'a', '=', '2', '\n', 'b', '=', '1', '\n', '\n'] ∧
    generate (parseLs [['b', '=', '1'], ['a', '=', '2']]).sections ≠
      ['[', ']', '\n', 'b', '=', '1', '\n', 'a', '=', '2', '\n', '\n'] := by
  decide

/-- C2 (amended): sections and the keys inside each section are stored
in strictly ascending lexicographic key order (`std::map`), and
generate emits them in exactly that stored order — deterministic, but
the order of insertion is irrelevant. -/
theorem claim2_theorem (lines : List Str) :
    ((parseLs lines).sections.map Prod.fst).Pairwise (fun a b => ltStr a b = true) ∧
    SortedMap (parseLs lines).sections ∧
    ∀ p ∈ (parseLs lines).sections, SortedMap p.2 := by
  have h := stInv_parseLs lines
  exact ⟨sortedMap_iff_keys.mp h.1, h.1, fun p hp => (h.2 p hp).2.1⟩

/-! ### Claim C10: termination and behavior of detail::replace -/
theorem isPrefixOf_ex_append : ∀ {l₁ l₂ : Str},
    l₁.isPrefixOf l₂ = true ↔ ∃ t, l₂ = l₁ ++ t
  | [], l₂ => by simp [List.isPrefixOf]
  | _ :: _, [] => by simp [List.isPrefixOf]
  | a :: as, b :: bs => by
    simp only [List.isPrefixOf, Bool.and_eq_true, beq_iff_eq]
    constructor
    · rintro ⟨rfl, h⟩
      obtain ⟨t, rfl⟩ := isPrefixOf_ex_append.mp h
      exact ⟨t, rfl⟩
    · rintro ⟨t, ht⟩
      injection ht with h1 h2
      exact ⟨h1.symm, isPrefixOf_ex_append.mpr ⟨t, h2⟩⟩

theorem isPrefixOf_length {l₁ l₂ : Str} (h : l₁.isPrefixOf l₂ = true) :
    l₁.length ≤ l₂.length := by
  obtain ⟨t, rfl⟩ := isPrefixOf_ex_append.mp h
  simp

theorem strFindGo_some {pat : Str} : ∀ {t : Str} {idx i : Nat},
    strFindGo pat t idx = some i →
    idx ≤ i ∧ i - idx ≤ t.length ∧ pat.isPrefixOf (t.drop (i - idx)) = true := by
  intro t
  induction t with
  | nil =>
    intro idx i h
    rw [strFindGo] at h
    by_cases hp : pat.isPrefixOf [] = true
    · rw [if_pos hp] at h
      injection h with h
      subst h
      simpa using hp
    · rw [if_neg hp] at h
      cases h
  | cons c t' ih =>
    intro idx i h
    rw [strFindGo] at h
    by_cases hp : pat.isPrefixOf (c :: t') = true
    · rw [if_pos hp] at h
      injection h with h
      subst h
      simpa using hp
    · rw [if_neg hp] at h
      obtain ⟨h1, h2, h3⟩ := ih h
      refine ⟨by omega, by simp; omega, ?_⟩
      have : i - idx = (i - (idx + 1)) + 1 := by omega
      rw [this, List.drop_succ_cons]
      exact h3

theorem strFind_some {s pat : Str} {start i : Nat}
    (h : strFind s pat start = some i) :
    start ≤ i ∧ i ≤ s.length ∧ pat.isPrefixOf (s.drop i) = true := by
  rw [strFind] at h
  by_cases hs : s.length < start
  · rw [if_pos hs] at h
    cases h
  · rw [if_neg hs] at h
    obtain ⟨h1, h2, h3⟩ := strFindGo_some h
    have hd : (s.drop start).length = s.length - start := by simp
    refine ⟨h1, by omega, ?_⟩
    rw [List.drop_drop] at h3
    have : start + (i - start) = i := by omega
    rwa [this] at h3

theorem replaceGo_isSome : ∀ (fuel : Nat) (frm toS s : Str) (pos : Nat) (ch : Bool),
    frm ≠ [] → s.length - pos < fuel →
    (replaceGo fuel frm toS s pos ch).isSome = true := by
  intro fuel
  induction fuel with
  | zero =>
    intro frm toS s pos ch h1 h2
    omega
  | succ n ih =>
    intro frm toS s pos ch h1 h2
    cases hf : strFind s frm pos with
    | none => simp [replaceGo, hf]
    | some i =>
      simp only [replaceGo, hf]
      apply ih _ _ _ _ _ h1
      obtain ⟨hp1, hp2, hp3⟩ := strFind_some hf
      have hfl : frm.length ≤ s.length - i := by
        have := isPrefixOf_length hp3
        simpa using this
      have hfl1 : 1 ≤ frm.length := by
        cases frm with
        | nil => exact absurd rfl h1
        | cons _ _ => simp
      have hslen : (s.take i ++ toS ++ s.drop (i + frm.length)).length =
          i + toS.length + (s.length - (i + frm.length)) := by
        simp [List.length_take, List.length_drop]
        omega
      rw [hslen]
      omega

theorem replaceGo_true : ∀ (fuel : Nat) (frm toS s : Str) (pos : Nat) (r : Str) (b : Bool),
    replaceGo fuel frm toS s pos true = some (r, b) → b = true := by
  intro fuel
  induction fuel with
  | zero =>
    intro frm toS s pos r b h
    cases h
  | succ n ih =>
    intro frm toS s pos r b h
    cases hf : strFind s frm pos with
    | none =>
      simp only [replaceGo, hf] at h
      injection h with h
      exact (congrArg Prod.snd h).symm
    | some i =>
      simp only [replaceGo, hf] at h
      exact ih _ _ _ _ _ _ h

theorem replaceGo_unchanged : ∀ (fuel : Nat) (frm toS s : Str) (pos : Nat) (ch : Bool) (r : Str),
    replaceGo fuel frm toS s pos ch = some (r, false) → r = s ∧ ch = false := by
  intro fuel
  induction fuel with
  | zero =>
    intro frm toS s pos ch r h
    cases h
  | succ n ih =>
    intro frm toS s pos ch r h
    cases hf : strFind s frm pos with
    | none =>
      simp only [replaceGo, hf] at h
      injection h with h
      exact ⟨(congrArg Prod.fst h).symm, (congrArg Prod.snd h)⟩
    | some i =>
      simp only [replaceGo, hf] at h
      have := replaceGo_true _ _ _ _ _ _ _ h
      cases this

/-- C10: for every nonempty pattern `frm`, the loop of `detail::replace`
terminates within `|s| + 1` iterations (each replacement resumes right
after the inserted text, so the unscanned suffix shrinks even when the
replacement text contains the pattern), `dreplace` is its result, and
the returned flag is true exactly when the pattern occurs in the input;
consequently every `detail::replace` call performed by
`Ini::replace_symbols` on a symbol table of nonempty patterns
terminates. -/
theorem claim10_theorem :
    (∀ frm toS s : Str, frm ≠ [] →
      replaceGo (s.length + 1) frm toS s 0 false = some (dreplace frm toS s) ∧
      ((dreplace frm toS s).2 = true ↔ strFind s frm 0 ≠ none)) ∧
    (∀ syms : Symbols, (∀ sym ∈ syms, sym.1 ≠ ([] : Str)) →
      ∀ sym ∈ syms, ∀ t : Str, replaceGo (t.length + 1) sym.1 sym.2 t 0 false ≠ none) := by
  have main : ∀ frm toS s : Str, frm ≠ [] →
      replaceGo (s.length + 1) frm toS s 0 false = some (dreplace frm toS s) ∧
      ((dreplace frm toS s).2 = true ↔ strFind s frm 0 ≠ none) := by
    intro frm toS s h
    have hsome : (replaceGo (s.length + 1) frm toS s 0 false).isSome = true :=
      replaceGo_isSome _ _ _ _ _ _ h (by omega)
    obtain ⟨r, hr⟩ := Option.isSome_iff_exists.mp hsome
    have hd : dreplace frm toS s = r := by
      rw [dreplace, hr]
      rfl
    refine ⟨by rw [hr, hd], ?_⟩
    rw [hd]
    cases hf : strFind s frm 0 with
    | none =>
      have : replaceGo (s.length + 1) frm toS s 0 false = some (s, false) := by
        simp [replaceGo, hf]
      rw [this] at hr
      injection hr with hr
      subst hr
      simp
    | some i =>
      have hstep : replaceGo (s.length + 1) frm toS s 0 false =
          replaceGo s.length frm toS (s.take i ++ toS ++ s.drop (i + frm.length))
            (i + toS.length) true := by
        simp [replaceGo, hf]
      rw [hstep] at hr
      have := replaceGo_true _ _ _ _ _ _ _ (by rw [hr, show r = (r.1, r.2) from rfl])
      simp [this]
  refine ⟨main, ?_⟩
  intro syms hsyms sym hmem t
  have := (main sym.1 sym.2 t (hsyms sym hmem)).1
  rw [this]
  simp

/-- Witness for C10 with pattern `"ab"`, replacement `"abab"` (which
contains the pattern) and subject `"xabab"`. -/
theorem claim10_witness :
    (['a', 'b'] : Str) ≠ [] ∧
    replaceGo ((['x', 'a', 'b', 'a', 'b'] : Str).length + 1) ['a', 'b'] ['a', 'b', 'a', 'b']
      ['x', 'a', 'b', 'a', 'b'] 0 false =
      some (dreplace ['a', 'b'] ['a', 'b', 'a', 'b'] ['x', 'a', 'b', 'a', 'b']) ∧
    ((dreplace ['a', 'b'] ['a', 'b', 'a', 'b'] ['x', 'a', 'b', 'a', 'b']).2 = true ↔
      strFind ['x', 'a', 'b', 'a', 'b'] ['a', 'b'] 0 ≠ none) :=
  ⟨by decide,
   (claim10_theorem.1 ['a', 'b'] ['a', 'b', 'a', 'b'] ['x', 'a', 'b', 'a', 'b'] (by decide)).1,
   (claim10_theorem.1 ['a', 'b'] ['a', 'b', 'a', 'b'] ['x', 'a', 'b', 'a', 'b'] (by decide)).2⟩

theorem dreplace_unchanged {f t s : Str} (h : (dreplace f t s).2 = false) :
    (dreplace f t s).1 = s := by
  rw [dreplace] at h ⊢
  cases hrep : replaceGo (s.length + 1) f t s 0 false with
  | none => simp [hrep]
  | some r =>
    obtain ⟨r1, r2⟩ := r
    rw [hrep] at h
    simp only [Option.getD_some] at h ⊢
    subst h
    exact (replaceGo_unchanged _ _ _ _ _ _ _ hrep).1

theorem applySym_unchanged {sym : Str × Str} {sec : Section}
    (h : (applySym sym sec).2 = false) : (applySym sym sec).1 = sec := by
  simp only [applySym] at h ⊢
  rw [List.any_eq_false] at h
  have hmap : ∀ kv ∈ sec, (kv.1, (dreplace sym.1 sym.2 kv.2).1) = kv := by
    intro kv hkv
    have hkvf : (dreplace sym.1 sym.2 kv.2).2 = false := by
      have := h kv hkv
      simpa using this
    rw [dreplace_unchanged hkvf]
  rw [List.map_congr_left hmap]
  simp

theorem replace_symbols_aux : ∀ (syms : Symbols) (sec : Section) (b : Bool),
    (syms.foldl (fun acc sym =>
      let r := applySym sym acc.1
      (r.1, acc.2 || r.2)) (sec, b)).2 = false →
    (syms.foldl (fun acc sym =>
      let r := applySym sym acc.1
      (r.1, acc.2 || r.2)) (sec, b)).1 = sec ∧ b = false := by
  intro syms
  induction syms with
  | nil =>
    intro sec b h
    exact ⟨rfl, h⟩
  | cons sym syms' ih =>
    intro sec b h
    rw [List.foldl_cons] at h ⊢
    obtain ⟨h1, h2⟩ := ih _ _ h
    have hb : b = false := by
      cases hb : b
      · rfl
      · rw [hb] at h2; simp at h2
    have hap : (applySym sym sec).2 = false := by
      cases hap : (applySym sym sec).2
      · rfl
      · rw [hap] at h2; simp [hb] at h2
    rw [h1, applySym_unchanged hap]
    exact ⟨rfl, hb⟩

theorem replace_symbols_unchanged {syms : Symbols} {sec : Section}
    (h : (replace_symbols syms sec).2 = false) : (replace_symbols syms sec).1 = sec :=
  (replace_symbols_aux syms sec false h).1

theorem interpPass_unchanged {ss : Sections} (h : (interpPass ss).2 = false) :
    passFun ss = ss := by
  rw [passFun]
  simp only [interpPass] at h ⊢
  rw [List.any_eq_false] at h
  have hmap : ∀ s ∈ ss, (s.1, (replace_symbols (global_symbols ss) s.2).1) = s := by
    intro s hs
    have hf : (replace_symbols (global_symbols ss) s.2).2 = false := by
      have := h s hs
      simpa using this
    rw [replace_symbols_unchanged hf]
  rw [List.map_congr_left hmap]
  simp

/-- Characterization of the `do` loop: starting at `global_iteration =
gi` with enough fuel, the loop either runs the body the full
`max_interpolation_depth + 1 - gi` times, or stops earlier at a pass
that made no replacement, whose result is a fixed point of the pass. -/
theorem interpGoF_spec : ∀ (fuel gi : Nat) (ss : Sections),
    max_interpolation_depth - gi < fuel →
    interpGoF fuel gi ss = passFun^[max_interpolation_depth - gi + 1] ss ∨
    ∃ n, n ≤ max_interpolation_depth - gi ∧ interpGoF fuel gi ss = passFun^[n] ss ∧
      passFun (passFun^[n] ss) = passFun^[n] ss := by
  intro fuel
  induction fuel with
  | zero =>
    intro gi ss h
    omega
  | succ f ih =>
    intro gi ss h
    rw [interpGoF]
    cases hch : (interpPass ss).2 with
    | false =>
      simp only [hch, Bool.false_and, if_false]
      right
      refine ⟨0, Nat.zero_le _, ?_, ?_⟩
      · simpa [passFun] using interpPass_unchanged hch
      · simpa using interpPass_unchanged hch
    | true =>
      by_cases hgi : max_interpolation_depth > gi
      · simp only [hch, Bool.true_and, decide_eq_true_eq, hgi, if_pos]
        have hfuel : max_interpolation_depth - (gi + 1) < f := by
          simp only [max_interpolation_depth] at *
          omega
        rcases ih (gi + 1) (interpPass ss).1 hfuel with h1 | ⟨n, hn, h2, h3⟩
        · left
          rw [h1]
          rw [show (interpPass ss).1 = passFun ss from rfl, ← Function.iterate_succ_apply]
          congr 1
          simp only [max_interpolation_depth] at *
          omega
        · right
          refine ⟨n + 1, by omega, ?_, ?_⟩
          · rw [h2, show (interpPass ss).1 = passFun ss from rfl, ← Function.iterate_succ_apply]
          · rw [show (interpPass ss).1 = passFun ss from rfl, ← Function.iterate_succ_apply] at h3
            exact h3
      · simp only [hch, Bool.true_and, decide_eq_true_eq, hgi, if_neg, if_false]
        left
        have : max_interpolation_depth - gi = 0 := by omega
        rw [this]
        rfl

/-- C5 (amended): `interpolate` first runs the localization phase, then
repeats the global-resolution pass (rebuilding the symbol table from
the current values each time) until a pass makes no replacement or the
iteration counter reaches the cap, whichever comes first; because the
check `max_interpolation_depth > global_iteration++` uses the
post-incremented counter, the loop body can execute up to **11** times
(not 10).  If the loop stops because a pass made no replacement, the
result is a fixed point of the pass, so values are stable under further
passes. -/
theorem claim5_theorem (ss : Sections) :
    interpolate ss = passFun^[11] (localizePass ss) ∨
    ∃ n, n ≤ 10 ∧ interpolate ss = passFun^[n] (localizePass ss) ∧
      passFun (passFun^[n] (localizePass ss)) = passFun^[n] (localizePass ss) := by
  have h := interpGoF_spec 11 0 (localizePass ss) (by simp [max_interpolation_depth])
  simpa [interpolate, interpGo, max_interpolation_depth] using h

theorem strFindGo_if (pat s : Str) (idx : Nat) :
    strFindGo pat s idx =
      if pat.isPrefixOf s then some idx
      else
        match s with
        | [] => none
        | _ :: rest => strFindGo pat rest (idx + 1) := by
  rw [strFindGo.eq_def]

theorem strFindGo_dots : ∀ (n idx : Nat),
    strFindGo dotsPat (List.replicate n '.' ++ dotsPat) idx = some (idx + n) := by
  intro n
  induction n with
  | zero =>
    intro idx
    rw [show List.replicate 0 '.' ++ dotsPat = dotsPat by simp]
    rw [strFindGo_if]
    rw [if_pos (by rw [isPrefixOf_ex_append]; exact ⟨[], by simp⟩)]
    norm_num
  | succ m ih =>
    intro idx
    rw [List.replicate_succ, List.cons_append, strFindGo_if]
    rw [if_neg (by simp [dotsPat, List.isPrefixOf])]
    show strFindGo dotsPat (List.replicate m '.' ++ dotsPat) (idx + 1) = some (idx + (m + 1))
    rw [ih (idx + 1)]
    congr 1
    omega

theorem strFind_dotsVal (n : Nat) : strFind (dotsVal n) dotsPat 0 = some n := by
  rw [strFind, if_neg (by omega), List.drop_zero, dotsVal, strFindGo_dots]
  norm_num

theorem strFind_at_end {s pat : Str} (h : pat ≠ []) : strFind s pat s.length = none := by
  rw [strFind, if_neg (by omega), List.drop_length, strFindGo_if]
  rw [if_neg (by cases pat with
    | nil => exact absurd rfl h
    | cons c t => simp [List.isPrefixOf])]

theorem dotsVal_length (n : Nat) : (dotsVal n).length = n + 6 := by
  simp [dotsVal, dotsPat]

theorem replaceGo_found {fuel : Nat} {frm toS s : Str} {pos i : Nat} {ch : Bool}
    (h : strFind s frm pos = some i) :
    replaceGo (fuel + 1) frm toS s pos ch =
      replaceGo fuel frm toS (s.take i ++ toS ++ s.drop (i + frm.length)) (i + toS.length) true := by
  simp only [replaceGo, h]

theorem replaceGo_notfound {fuel : Nat} {frm toS s : Str} {pos : Nat} {ch : Bool}
    (h : strFind s frm pos = none) :
    replaceGo (fuel + 1) frm toS s pos ch = some (s, ch) := by
  simp only [replaceGo, h]

theorem dreplace_dots (n : Nat) :
    dreplace dotsPat (dotsVal n) (dotsVal n) = (dotsVal (2 * n), true) := by
  have htake : (dotsVal n).take n = List.replicate n '.' := by
    rw [dotsVal]
    exact List.take_left' (by simp)
  have hdrop : (dotsVal n).drop (n + dotsPat.length) = [] := by
    rw [show n + dotsPat.length = (dotsVal n).length by
      rw [dotsVal_length]; simp [dotsPat]]
    exact List.drop_length _
  have hval : List.replicate n '.' ++ dotsVal n = dotsVal (2 * n) := by
    rw [dotsVal, dotsVal, ← List.append_assoc, ← List.replicate_add]
    congr 2
    omega
  rw [dreplace, dotsVal_length]
  rw [replaceGo_found (strFind_dotsVal n)]
  rw [htake, hdrop, List.append_nil, hval]
  have hend : strFind (dotsVal (2 * n)) dotsPat (n + (dotsVal n).length) = none := by
    rw [show n + (dotsVal n).length = (dotsVal (2 * n)).length by
      rw [dotsVal_length, dotsVal_length]; omega]
    exact strFind_at_end (by simp [dotsPat])
  rw [show n + 6 = (n + 5) + 1 from rfl]
  rw [replaceGo_notfound hend]
  rfl

theorem interpPass_dots (n : Nat) :
    interpPass (dotsDoc n) = (dotsDoc (2 * n), true) := by
  have hsyms : global_symbols (dotsDoc n) = [(dotsPat, dotsVal n)] := by
    simp [global_symbols, dotsDoc, global_symbol, local_symbol, dotsPat]
  rw [interpPass, hsyms]
  have hrs : replace_symbols [(dotsPat, dotsVal n)] [(['a'], dotsVal n)] =
      ([(['a'], dotsVal (2 * n))], true) := by
    simp [replace_symbols, applySym, dreplace_dots n]
  simp [dotsDoc, hrs]

theorem passFun_dots (n : Nat) : passFun (dotsDoc n) = dotsDoc (2 * n) := by
  rw [passFun, interpPass_dots]

theorem passFun_iterate_dots : ∀ (k n : Nat),
    passFun^[k] (dotsDoc n) = dotsDoc (2 ^ k * n) := by
  intro k
  induction k with
  | zero =>
    intro n
    simp
  | succ m ih =>
    intro n
    rw [Function.iterate_succ_apply, passFun_dots, ih]
    congr 1
    ring

theorem interpGoF_dots : ∀ (fuel gi n : Nat), fuel + gi = 11 → gi ≤ 10 →
    interpGoF fuel gi (dotsDoc n) = dotsDoc (2 ^ fuel * n) := by
  intro fuel
  induction fuel with
  | zero =>
    intro gi n h1 h2
    omega
  | succ f ih =>
    intro gi n h1 h2
    rw [interpGoF]
    rw [show interpPass (dotsDoc n) = (dotsDoc (2 * n), true) from interpPass_dots n]
    by_cases hgi : gi < 10
    · rw [if_pos (by simp [max_interpolation_depth]; omega)]
      rw [ih (gi + 1) (2 * n) (by omega) (by omega)]
      congr 1
      ring
    · have hgi10 : gi = 10 := by omega
      have hf0 : f = 0 := by omega
      rw [if_neg (by simp [max_interpolation_depth, hgi10])]
      rw [hf0]
      norm_num

theorem dotsDoc_ne {m n : Nat} (h : m ≠ n) : dotsDoc m ≠ dotsDoc n := by
  intro he
  simp only [dotsDoc, List.cons.injEq, Prod.mk.injEq] at he
  have := congrArg List.length he.1.2.1.2
  rw [dotsVal_length, dotsVal_length] at this
  omega

/-- C5 is refuted at the one-key document `s.a = ".${s:a}"`: every pass
doubles the dots and reports a change, so the loop body runs 11 times —
`interpolate` returns the result of 11 passes, which differs from the
result of 10 passes.  The claim's bound of at most 10 executions of the
loop body is wrong (the post-increment in the loop condition admits an
11th). -/
theorem claim5_counterexample :
    interpolate (dotsDoc 1) = passFun^[11] (dotsDoc 1) ∧
    passFun^[11] (dotsDoc 1) ≠ passFun^[10] (dotsDoc 1) := by
  have hloc : localizePass (dotsDoc 1) = dotsDoc 1 := by decide
  constructor
  · rw [interpolate, hloc, interpGo, passFun_iterate_dots 11 1]
    rw [show max_interpolation_depth + 1 - 0 = 11 from rfl]
    rw [interpGoF_dots 11 0 1 rfl (by omega)]
  · rw [passFun_iterate_dots 11 1, passFun_iterate_dots 10 1]
    exact dotsDoc_ne (by norm_num)

/-! ### Claim C6: the localization pass -/
/-- C6: the localization pass runs exactly once, before the global
loop; it processes every section with the symbols built from that
section's own keys only (each key `k` of section `S` contributes the
pair `("${k}", "${S:k}")`), so a bare reference in one section is never
rewritten against another section's keys; in the example section
`s = {a: "1", b: "${a}"}`, interpolation yields `s.b = "1"`. -/
theorem claim6_theorem :
    (∀ ss : Sections, interpolate ss = interpGo 0 (localizePass ss)) ∧
    (∀ (ss : Sections) (s : Str × Section), s ∈ ss →
      (s.1, (replace_symbols (local_symbols s.1 s.2) s.2).1) ∈ localizePass ss) ∧
    (∀ (secName : Str) (sec : Section) (kv : Str × Str), kv ∈ sec →
      (local_symbol kv.1, global_symbol secName kv.1) ∈ local_symbols secName sec) ∧
    interpolate [(['s'], [(['a'], ['1']), (['b'], ['$', '\x7b', 'a', '\x7d'])])] =
      [(['s'], [(['a'], ['1']), (['b'], ['1'])])] := by
  refine ⟨fun ss => rfl, ?_, ?_, by decide⟩
  · intro ss s hs
    exact List.mem_map_of_mem _ hs
  · intro secName sec kv hkv
    exact List.mem_map_of_mem _ hkv

/-- Witness for C6 instantiating the membership parts at the example
document. -/
theorem claim6_witness :
    ((['s'], (replace_symbols
        (local_symbols ['s'] [(['a'], ['1']), (['b'], ['$', '\x7b', 'a', '\x7d'])])
        [(['a'], ['1']), (['b'], ['$', '\x7b', 'a', '\x7d'])]).1) ∈
      localizePass [(['s'], [(['a'], ['1']), (['b'], ['$', '\x7b', 'a', '\x7d'])])]) ∧
    ((local_symbol ['a'], global_symbol ['s'] ['a']) ∈
      local_symbols ['s'] [(['a'], ['1']), (['b'], ['$', '\x7b', 'a', '\x7d'])]) :=
  ⟨claim6_theorem.2.1 _ (['s'], [(['a'], ['1']), (['b'], ['$', '\x7b', 'a', '\x7d'])])
      (by decide),
   claim6_theorem.2.2.1 ['s'] [(['a'], ['1']), (['b'], ['$', '\x7b', 'a', '\x7d'])]
      (['a'], ['1']) (by decide)⟩

/-! ### Claim C7: default_section -/
theorem mapFind_mapInsert_ne {k k0 : Str} {v0 : α} (h : k ≠ k0) :
    ∀ (m : List (Str × α)), mapFind k (mapInsert k0 v0 m) = mapFind k m
  | [] => by simp [mapInsert, mapFind, h]
  | (k', v') :: rest => by
    simp only [mapInsert]
    by_cases h1 : ltStr k0 k' = true
    · simp [h1, mapFind, h]
    · by_cases h2 : ltStr k' k0 = true
      · simp only [h1, h2, Bool.false_eq_true, if_false, if_true, mapFind]
        by_cases hk' : k = k'
        · simp [hk']
        · simp only [hk', if_neg, if_false]
          exact mapFind_mapInsert_ne h rest
      · simp [h1, h2]

theorem mapFind_foldl_insert : ∀ (ext : Section) (m : Section) (k : Str), SortedMap m →
    mapFind k (ext.foldl (fun acc val => mapInsert val.1 val.2 acc) m) =
      (match mapFind k m with
       | some v => some v
       | none => mapFind k ext) := by
  intro ext
  induction ext with
  | nil =>
    intro m k _
    cases h : mapFind k m <;> simp [h, mapFind]
  | cons kv0 ext' ih =>
    obtain ⟨k0, v0⟩ := kv0
    intro m k hs
    rw [List.foldl_cons]
    rw [ih (mapInsert k0 v0 m) k (mapInsert_sorted hs)]
    by_cases hk : k = k0
    · rw [hk, mapFind_mapInsert_self hs]
      cases h : mapFind k0 m with
      | none => simp [h, mapFind]
      | some v => simp [h, mapFind]
    · rw [mapFind_mapInsert_ne hk]
      cases h : mapFind k m with
      | none => simp [h, mapFind, hk]
      | some v => simp [h, mapFind, hk]

/-- C7: `default_section` changes no section name (none created, none
removed); in every existing section, a key already present keeps its
value, and a key of the external set absent from the section is added
with the external value (lookups obey `first the section, then the
external set`). -/
theorem claim7_theorem :
    (∀ (ext : Section) (ss : Sections),
      (default_section ext ss).map Prod.fst = ss.map Prod.fst) ∧
    (∀ (ext : Section) (ss : Sections) (p : Str × Section), p ∈ ss → SortedMap p.2 →
      ((p.1, ext.foldl (fun acc val => mapInsert val.1 val.2 acc) p.2) ∈
        default_section ext ss ∧
       ∀ k, mapFind k (ext.foldl (fun acc val => mapInsert val.1 val.2 acc) p.2) =
        (match mapFind k p.2 with
         | some v => some v
         | none => mapFind k ext))) := by
  constructor
  · intro ext ss
    rw [default_section, List.map_map]
    rfl
  · intro ext ss p hp hs
    exact ⟨List.mem_map_of_mem _ hp, fun k => mapFind_foldl_insert ext p.2 k hs⟩

/-- Witness for C7: defaults `{x: "1"}` applied to a document with a
section that has `x` and a section that lacks it. -/
theorem claim7_witness :
    ((['a'], List.foldl (fun acc val => mapInsert val.1 val.2 acc)
        [(['x'], ['9'])] [(['x'], ['1'])]) ∈
      default_section [(['x'], ['1'])]
        [(['a'], [(['x'], ['9'])]), (['b'], [(['y'], ['2'])])]) ∧
    (∀ k, mapFind k (List.foldl (fun acc val => mapInsert val.1 val.2 acc)
        [(['x'], ['9'])] [(['x'], ['1'])]) =
      (match mapFind k [(['x'], ['9'])] with
       | some v => some v
       | none => mapFind k [(['x'], ['1'])])) := by
  have h := claim7_theorem.2 [(['x'], ['1'])]
    [(['a'], [(['x'], ['9'])]), (['b'], [(['y'], ['2'])])]
    (['a'], [(['x'], ['9'])]) (by decide) (by decide)
  exact ⟨h.1, h.2⟩

/-! ### Claim C8: typed extraction -/
theorem readCharTok_none_iff {rest : Str} :
    readCharTok rest = none ↔ rest.all isSpaceC = true := by
  rw [readCharTok, List.all_eq_true]
  cases hs : skipWs rest with
  | nil =>
    rw [skipWs] at hs
    simp only [true_iff]
    intro x hx
    exact List.dropWhile_eq_nil_iff.mp hs x hx
  | cons c r =>
    simp only [reduceCtorEq, false_iff, not_forall]
    rw [skipWs] at hs
    by_contra hall
    push_neg at hall
    have : rest.dropWhile isSpaceC = [] :=
      List.dropWhile_eq_nil_iff.mpr fun x hx => hall x hx
    rw [this] at hs
    cases hs

theorem extractInt_noread {v : Str} {d : Int} (h : readInt v = none) :
    extractInt v d = (false, d) := by
  simp only [extractInt, h]

theorem extractInt_leftover {v : Str} {d r : Int} {rest : Str} {pr : Char × Str}
    (h : readInt v = some (r, rest)) (h2 : readCharTok rest = some pr) :
    extractInt v d = (false, d) := by
  simp only [extractInt, h, h2]

theorem extractInt_ok {v : Str} {d r : Int} {rest : Str}
    (h : readInt v = some (r, rest)) (h2 : readCharTok rest = none) :
    extractInt v d = (true, r) := by
  simp only [extractInt, h, h2]

theorem extractBool_noread {v : Str} {d : Bool} (h : readBool v = none) :
    extractBool v d = (false, d) := by
  simp only [extractBool, h]

theorem extractBool_leftover {v : Str} {d r : Bool} {rest : Str} {pr : Char × Str}
    (h : readBool v = some (r, rest)) (h2 : readCharTok rest = some pr) :
    extractBool v d = (false, d) := by
  simp only [extractBool, h, h2]

theorem extractBool_ok {v : Str} {d r : Bool} {rest : Str}
    (h : readBool v = some (r, rest)) (h2 : readCharTok rest = none) :
    extractBool v d = (true, r) := by
  simp only [extractBool, h, h2]

/-- C8: for the `int` target, extraction succeeds and writes the parsed
result exactly when the stream read of an integer succeeds and only
whitespace remains (the probe read `is >> c` then fails at end of
stream); on failure the destination is unchanged.  The stream read
itself fails — failbit — on an empty digit field and on a value out of
the range of `int`, so `"2147483648"` fails while `"2147483647"` and
`"-2147483648"` succeed.  For the string target, extraction always
succeeds and copies the value verbatim, without trimming.  Boolean
targets accept the word forms `true` / `false` under `boolalpha`. -/
theorem claim8_theorem :
    (∀ (v : Str) (d : Int),
      ((extractInt v d).1 = true ↔
        ∃ r rest, readInt v = some (r, rest) ∧ rest.all isSpaceC = true)) ∧
    (∀ (v : Str) (d r : Int) (rest : Str),
      readInt v = some (r, rest) → rest.all isSpaceC = true → extractInt v d = (true, r)) ∧
    (∀ (v : Str) (d : Int), (extractInt v d).1 = false → (extractInt v d).2 = d) ∧
    (∀ (v : Str) (d r : Bool) (rest : Str),
      readBool v = some (r, rest) → rest.all isSpaceC = true → extractBool v d = (true, r)) ∧
    (∀ (v : Str) (d : Bool), (extractBool v d).1 = false → (extractBool v d).2 = d) ∧
    (∀ (v d : Str), extractString v d = (true, v)) ∧
    extractInt ['4', '2'] 0 = (true, 42) ∧
    extractInt ['4', '2', 'x'] 7 = (false, 7) ∧
    extractBool ['t', 'r', 'u', 'e'] false = (true, true) ∧
    extractString [' ', 'r', 'a', 'w', ' '] [] = (true, [' ', 'r', 'a', 'w', ' ']) ∧
    extractInt ['2', '1', '4', '7', '4', '8', '3', '6', '4', '8'] 7 = (false, 7) ∧
    extractInt ['2', '1', '4', '7', '4', '8', '3', '6', '4', '7'] 0 = (true, 2147483647) ∧
    extractInt ['-', '2', '1', '4', '7', '4', '8', '3', '6', '4', '8'] 0 = (true, -2147483648) := by
  refine ⟨?_, ?_, ?_, ?_, ?_, fun v d => rfl, by decide, by decide, by decide, by decide,
    by decide, by decide, by decide⟩
  · intro v d
    constructor
    · intro h
      cases hri : readInt v with
      | none => rw [extractInt_noread hri] at h; cases h
      | some pr =>
        obtain ⟨r, rest⟩ := pr
        cases hct : readCharTok rest with
        | none => exact ⟨r, rest, rfl, readCharTok_none_iff.mp hct⟩
        | some c => rw [extractInt_leftover hri hct] at h; cases h
    · rintro ⟨r, rest, hread, hall⟩
      rw [extractInt_ok hread (readCharTok_none_iff.mpr hall)]
  · intro v d r rest hread hall
    exact extractInt_ok hread (readCharTok_none_iff.mpr hall)
  · intro v d
    cases hri : readInt v with
    | none => rw [extractInt_noread hri]; intro _; rfl
    | some pr =>
      obtain ⟨r, rest⟩ := pr
      cases hct : readCharTok rest with
      | none => rw [extractInt_ok hri hct]; intro hc; cases hc
      | some c => rw [extractInt_leftover hri hct]; intro _; rfl
  · intro v d r rest hread hall
    exact extractBool_ok hread (readCharTok_none_iff.mpr hall)
  · intro v d
    cases hri : readBool v with
    | none => rw [extractBool_noread hri]; intro _; rfl
    | some pr =>
      obtain ⟨r, rest⟩ := pr
      cases hct : readCharTok rest with
      | none => rw [extractBool_ok hri hct]; intro hc; cases hc
      | some c => rw [extractBool_leftover hri hct]; intro _; rfl

/-- Witness for C8 applying the success case at `" 42 "` (stream
extraction skips surrounding whitespace) and the destination
preservation at `"42x"`. -/
theorem claim8_witness :
    readInt [' ', '4', '2', ' '] = some (42, [' ']) ∧
    ([' '] : Str).all isSpaceC = true ∧
    extractInt [' ', '4', '2', ' '] 7 = (true, 42) ∧
    (extractInt ['4', '2', 'x'] 7).1 = false ∧
    (extractInt ['4', '2', 'x'] 7).2 = 7 := by
  refine ⟨by decide, by decide, ?_, by decide, ?_⟩
  · exact claim8_theorem.2.1 [' ', '4', '2', ' '] 7 42 [' '] (by decide) (by decide)
  · exact claim8_theorem.2.2.1 ['4', '2', 'x'] 7 (by decide)

/-! ### Claim C9: parse/generate round trip.  First, no character of a
parsed Document is a newline (lines come from `getline`). -/
theorem mem_ltrim {x : Char} {s : Str} (h : x ∈ ltrim s) : x ∈ s :=
  (List.dropWhile_sublist _).subset h

theorem mem_rtrim {x : Char} {s : Str} (h : x ∈ rtrim s) : x ∈ s := by
  rw [rtrim] at h
  rw [List.mem_reverse] at h
  have := (List.dropWhile_sublist _).subset h
  rwa [List.mem_reverse] at this

theorem mem_trimC {x : Char} {s : Str} (h : x ∈ trimC s) : x ∈ s :=
  mem_ltrim (mem_rtrim h)

/-- No line produced by the `getline` loop contains a newline. -/
theorem getlines_no_nl : ∀ (s : Str), ∀ l ∈ getlines s, ('\n' : Char) ∉ l := by
  intro s
  induction s with
  | nil =>
    intro l hl
    cases hl
  | cons c rest ih =>
    intro l hl
    rw [getlines] at hl
    by_cases hc : c = '\n'
    · rw [if_pos hc] at hl
      rcases List.mem_cons.mp hl with rfl | hl'
      · intro h
        cases h
      · exact ih l hl'
    · rw [if_neg hc] at hl
      cases hg : getlines rest with
      | nil =>
        rw [hg] at hl
        rcases List.mem_cons.mp hl with rfl | hl'
        · intro h
          rcases List.mem_singleton.mp h with rfl
          exact hc rfl
        · cases hl'
      | cons l0 ls =>
        rw [hg] at hl
        rcases List.mem_cons.mp hl with rfl | hl'
        · intro h
          rcases List.mem_cons.mp h with rfl | h'
          · exact hc rfl
          · exact ih l0 (hg ▸ List.mem_cons_self _ _) h'
        · exact ih l (hg ▸ List.mem_cons_of_mem _ hl')

/-- Re-splitting: `getline` on newline-joined newline-free lines
returns exactly those lines. -/
theorem getlines_append_nl {l : Str} (r : Str) (h : ('\n' : Char) ∉ l) :
    getlines (l ++ '\n' :: r) = l :: getlines r := by
  induction l with
  | nil =>
    rw [List.nil_append, getlines, if_pos rfl]
  | cons c l' ih =>
    have hc : c ≠ '\n' := fun hc => h (hc ▸ List.mem_cons_self _ _)
    have h' : ('\n' : Char) ∉ l' := fun hm => h (List.mem_cons_of_mem _ hm)
    rw [List.cons_append, getlines, if_neg hc, ih h']

theorem getlines_joinNl : ∀ (ls : List Str), (∀ l ∈ ls, ('\n' : Char) ∉ l) →
    getlines (joinNl ls) = ls := by
  intro ls
  induction ls with
  | nil =>
    intro _
    rfl
  | cons l ls' ih =>
    intro h
    have hj : joinNl (l :: ls') = l ++ '\n' :: joinNl ls' := by
      simp [joinNl]
    rw [hj, getlines_append_nl _ (h l (List.mem_cons_self _ _)),
      ih fun l' hl' => h l' (List.mem_cons_of_mem _ hl')]

theorem mapFind_mem {k : Str} {v : α} :
    ∀ {l : List (Str × α)}, mapFind k l = some v → (k, v) ∈ l
  | [], h => by cases h
  | (k', v') :: rest, h => by
    simp only [mapFind] at h
    by_cases hk : k = k'
    · rw [if_pos hk] at h
      injection h with h
      subst hk
      subst h
      exact List.mem_cons_self _ _
    · rw [if_neg hk] at h
      exact List.mem_cons_of_mem _ (mapFind_mem h)

theorem nlInv_parseLine {st : ParseState} (raw : Str)
    (hraw : ('\n' : Char) ∉ raw) (h : NlInv st) : NlInv (parseLine st raw) := by
  have htr : ∀ x ∈ trimC raw, x ∈ raw := fun x hx => mem_trimC hx
  rw [parseLine]
  match ht : trimC raw with
  | [] => exact h
  | front :: rest =>
    have htr2 : ∀ x ∈ front :: rest, x ∈ raw := fun x hx => htr x (ht ▸ hx)
    rw [parseLineCore_cons]
    by_cases hc : front = ';'
    · rw [if_pos hc]; exact h
    rw [if_neg hc]
    by_cases hb : front = '['
    · rw [if_pos hb]
      by_cases hl : (front :: rest).getLast? = some ']'
      · rw [if_pos hl]
        refine ⟨?_, h.2⟩
        intro hm
        exact hraw (htr2 '\n'
          ((List.drop_sublist 1 _).subset ((List.dropLast_sublist _).subset hm)))
      · rw [if_neg hl]; exact h
    rw [if_neg hb]
    split
    · rename_i p hfi
      by_cases hp : p = 0
      · rw [if_neg (show ¬ p ≠ 0 by simp [hp])]
        exact h
      rw [if_pos (show p ≠ 0 from hp)]
      have hvar : ∀ x ∈ rtrim ((front :: rest).take p), x ∈ raw := fun x hx =>
        htr2 x ((List.take_sublist _ _).subset (mem_rtrim hx))
      have hval : ∀ x ∈ ltrim ((front :: rest).drop (p + 1)), x ∈ raw := fun x hx =>
        htr2 x ((List.drop_sublist _ _).subset (mem_ltrim hx))
      by_cases hdup : mapFind (rtrim ((front :: rest).take p))
          ((mapFind st.sect (mapInsert st.sect ([] : Section) st.sections)).getD []) = none
      · rw [if_pos hdup]
        refine ⟨h.1, ?_⟩
        intro q hq
        rcases mem_mapSet hq with hq1 | ⟨hq1, hq2⟩
        · rcases mem_mapInsert hq1 with hq2 | rfl
          · exact h.2 q hq2
          · exact ⟨h.1, by intro kv hkv; cases hkv⟩
        · refine ⟨hq1 ▸ h.1, ?_⟩
          rw [hq2]
          intro kv hkv
          rcases mem_mapInsert hkv with hkv1 | rfl
          · cases hsec : mapFind st.sect (mapInsert st.sect ([] : Section) st.sections) with
            | none =>
              rw [hsec] at hkv1
              cases hkv1
            | some sec0 =>
              rw [hsec] at hkv1
              simp only [Option.getD_some] at hkv1
              have hmem := mapFind_mem hsec
              rcases mem_mapInsert hmem with hmem1 | heq
              · exact (h.2 _ hmem1).2 kv hkv1
              · have hnil : sec0 = [] := congrArg Prod.snd heq
                rw [hnil] at hkv1
                cases hkv1
          · exact ⟨fun hm => hraw (hvar '\n' hm), fun hm => hraw (hval '\n' hm)⟩
      · rw [if_neg hdup]
        refine ⟨h.1, ?_⟩
        intro q hq
        rcases mem_mapInsert hq with hq1 | rfl
        · exact h.2 q hq1
        · exact ⟨h.1, by intro kv hkv; cases hkv⟩
    · exact h

theorem nlInv_initState : NlInv initState := by
  constructor
  · intro h
    cases h
  · intro p hp
    cases hp

theorem nlInv_parseText (text : Str) : NlInv (parseText text) := by
  rw [parseText, parseLs]
  have hlines := getlines_no_nl text
  have main : ∀ (ls : List Str) (st : ParseState), NlInv st → (∀ l ∈ ls, ('\n' : Char) ∉ l) →
      NlInv (ls.foldl parseLine st) := by
    intro ls
    induction ls with
    | nil => intro st h _; exact h
    | cons l ls' ih =>
      intro st h hls
      rw [List.foldl_cons]
      exact ih _ (nlInv_parseLine l (hls l (List.mem_cons_self _ _)) h)
        fun l' hl' => hls l' (List.mem_cons_of_mem _ hl')
  exact main _ _ nlInv_initState hlines

theorem trimC_header_line (n : Str) : trimC ('[' :: n ++ [']']) = '[' :: n ++ [']'] := by
  have hlast : ('[' :: (n ++ [']'])).getLast? = some ']' := by
    rw [show ('[' :: (n ++ [']']) : Str) = ('[' :: n) ++ [']'] by simp]
    exact List.getLast?_concat _
  exact trimC_eq_self (by decide) (by decide) hlast

theorem trimC_kv_line {k v : Str} (hk : RTKey k) (hv : RTVal v) :
    trimC (k ++ '=' :: v) = k ++ '=' :: v := by
  obtain ⟨hne, -, -, -, hlt, hrt⟩ := hk
  match hke : k with
  | [] => exact absurd rfl hne
  | c :: k' =>
    have hc : isSpaceC c = false := ltrim_self_head hlt
    rw [List.cons_append]
    cases hve : v.reverse with
    | nil =>
      have hv0 : v = [] := by
        have := congrArg List.reverse hve
        simpa using this
      subst hv0
      have hlast2 : (c :: (k' ++ ['='])).getLast? = some '=' := by
        rw [show (c :: (k' ++ ['=']) : Str) = (c :: k') ++ ['='] by simp]
        exact List.getLast?_concat _
      exact trimC_eq_self hc (by decide) hlast2
    | cons d r =>
      have hlast : v.getLast? = some d := by
        rw [List.getLast?_eq_head?_reverse, hve]
        rfl
      have hd : isSpaceC d = false := rtrim_self_last hv.2 hlast
      obtain ⟨v', hv'⟩ := List.getLast?_eq_some_iff.mp hlast
      have hlast2 : (c :: (k' ++ '=' :: v)).getLast? = some d := by
        rw [hv']
        rw [show (c :: (k' ++ '=' :: (v' ++ [d])) : Str) = (c :: k' ++ '=' :: v') ++ [d] by simp]
        exact List.getLast?_concat _
      exact trimC_eq_self hc hd hlast2

/-- Parsing the serialized `key=value` lines of a section: starting
right after the section's header (current name `n`, everything before
`n` already rebuilt in `pre`), the lines rebuild exactly the section. -/
theorem reparse_keys : ∀ (todo done : Section) (n : Str) (pre : Sections) (st : ParseState),
    st.sect = n →
    (st.sections = pre ++ [(n, done)] ∨ (st.sections = pre ∧ done = [] ∧ todo ≠ [])) →
    (∀ p ∈ pre, ltStr p.1 n = true) →
    SortedMap (done ++ todo) →
    (∀ kv ∈ todo, RTKey kv.1 ∧ RTVal kv.2) →
    List.foldl parseLine st (todo.map fun kv => kv.1 ++ '=' :: kv.2) =
      { st with sections := pre ++ [(n, done ++ todo)] } := by
  intro todo
  induction todo with
  | nil =>
    intro done n pre st hsect hsec hpre hsort hgood
    rcases hsec with hsec | ⟨-, -, hne⟩
    · rw [List.map_nil, List.foldl_nil, List.append_nil, ← hsec]
    · exact absurd rfl hne
  | cons kv todo' ih =>
    intro done n pre st hsect hsec hpre hsort hgood
    obtain ⟨k, v⟩ := kv
    have hgk : RTKey k := (hgood (k, v) (List.mem_cons_self _ _)).1
    have hgv : RTVal v := (hgood (k, v) (List.mem_cons_self _ _)).2
    obtain ⟨hne, hh1, hh2, hh3, hh4, hh5⟩ := hgk
    obtain ⟨c, k', rfl⟩ : ∃ c k', k = c :: k' := by
      cases k with
      | nil => exact absurd rfl hne
      | cons c k' => exact ⟨c, k', rfl⟩
    have hc1 : c ≠ ';' := by
      intro hc
      rw [hc] at hh1
      exact hh1 rfl
    have hc2 : c ≠ '[' := by
      intro hc
      rw [hc] at hh2
      exact hh2 rfl
    rw [List.map_cons, List.foldl_cons]
    have hstep : parseLine st ((c :: k') ++ '=' :: v) =
        { st with sections := pre ++ [(n, done ++ [(c :: k', v)])] } := by
      rw [parseLine, trimC_kv_line ⟨hne, hh1, hh2, hh3, hh4, hh5⟩ hgv]
      rw [parseLineCore_kv st c k' v hc1 hc2 hh3 hh5 hgv.1]
      have hss1 : mapInsert st.sect ([] : Section) st.sections = pre ++ [(n, done)] := by
        rw [hsect]
        rcases hsec with hsec | ⟨hsec, hdone, -⟩
        · rw [hsec]
          exact mapInsert_of_found_prefix hpre
        · rw [hsec, hdone]
          exact mapInsert_of_lt_all hpre
      have hfindsec : mapFind st.sect (mapInsert st.sect ([] : Section) st.sections) =
          some done := by
        rw [hss1, hsect, mapFind_append_of_ne (fun p hp => ltStr_ne (hpre p hp))]
        simp [mapFind]
      have hdlt : ∀ p ∈ done, ltStr p.1 (c :: k') = true := by
        intro p hp
        rw [SortedMap, List.pairwise_append] at hsort
        exact hsort.2.2 p hp (c :: k', v) (List.mem_cons_self _ _)
      have hdnone : mapFind (c :: k') done = none :=
        mapFind_eq_none_of_ne fun p hp => ltStr_ne (hdlt p hp)
      rw [hfindsec]
      simp only [Option.getD_some]
      rw [if_pos hdnone]
      rw [hss1]
      rw [show mapInsert (c :: k') v done = done ++ [(c :: k', v)] from
        mapInsert_of_lt_all hdlt]
      rw [hsect, mapSet_append_of_ne (fun p hp => ltStr_ne (hpre p hp))]
    rw [hstep]
    have := ih (done ++ [(c :: k', v)]) n pre
      { st with sections := pre ++ [(n, done ++ [(c :: k', v)])] }
      hsect (Or.inl rfl) hpre
      (by rw [show (done ++ [(c :: k', v)]) ++ todo' = done ++ (c :: k', v) :: todo' by simp]
          exact hsort)
      (fun kv' hkv' => hgood kv' (List.mem_cons_of_mem _ hkv'))
    rw [this]
    simp

/-- Parsing the serialized lines of a sorted document with serializable
contents appends exactly that document to the sections already built. -/
theorem reparse_doc : ∀ (d : Sections) (pre : Sections) (st : ParseState),
    st.sections = pre →
    SortedMap (pre ++ d) →
    (∀ p ∈ d, p.2 ≠ [] ∧ SortedMap p.2 ∧ ∀ kv ∈ p.2, RTKey kv.1 ∧ RTVal kv.2) →
    ∃ s', List.foldl parseLine st (genLines d) =
      { sect := s', sections := pre ++ d, errors := st.errors } := by
  intro d
  induction d with
  | nil =>
    intro pre st hpre hsort hgood
    refine ⟨st.sect, ?_⟩
    rw [genLines, List.flatMap_nil, List.foldl_nil, List.append_nil, ← hpre]
  | cons s d' ih =>
    obtain ⟨n, sec⟩ := s
    intro pre st hpre hsort hgood
    have hsec_ne : sec ≠ [] := (hgood (n, sec) (List.mem_cons_self _ _)).1
    have hsec_sorted : SortedMap sec := (hgood (n, sec) (List.mem_cons_self _ _)).2.1
    have hsec_good := (hgood (n, sec) (List.mem_cons_self _ _)).2.2
    have hpre_lt : ∀ p ∈ pre, ltStr p.1 n = true := by
      rw [SortedMap, List.pairwise_append] at hsort
      exact fun p hp => hsort.2.2 p hp (n, sec) (List.mem_cons_self _ _)
    have hgen : genLines ((n, sec) :: d') =
        ('[' :: n ++ [']']) ::
          (((sec.map fun kv => kv.1 ++ '=' :: kv.2) ++ [([] : Str)]) ++ genLines d') := by
      simp [genLines]
    rw [hgen, List.foldl_cons]
    have hh : parseLine st ('[' :: n ++ [']']) = { st with sect := n } := by
      rw [parseLine, trimC_header_line, parseLineCore_header]
    rw [hh, List.foldl_append, List.foldl_append]
    have hkeys := reparse_keys sec [] n pre { st with sect := n } rfl
      (Or.inr ⟨by simpa using hpre, rfl, hsec_ne⟩) hpre_lt
      (by simpa using hsec_sorted) hsec_good
    rw [hkeys]
    have hblank : List.foldl parseLine
        { { st with sect := n } with sections := pre ++ [(n, [] ++ sec)] } [([] : Str)] =
        { { st with sect := n } with sections := pre ++ [(n, [] ++ sec)] } := by
      rw [List.foldl_cons, List.foldl_nil]
      rfl
    rw [hblank]
    have hrec := ih (pre ++ [(n, sec)])
      { { st with sect := n } with sections := pre ++ [(n, [] ++ sec)] }
      (by simp)
      (by rw [show (pre ++ [(n, sec)]) ++ d' = pre ++ ((n, sec) :: d') by simp]
          exact hsort)
      (fun p hp => hgood p (List.mem_cons_of_mem _ hp))
    obtain ⟨s', hs'⟩ := hrec
    refine ⟨s', ?_⟩
    rw [hs']
    simp

/-- The serialized lines of a Document without newlines in names, keys
and values contain no newline. -/
theorem genLines_no_nl {d : Sections}
    (hd : ∀ p ∈ d, ('\n' : Char) ∉ p.1 ∧
      ∀ kv ∈ p.2, ('\n' : Char) ∉ kv.1 ∧ ('\n' : Char) ∉ kv.2) :
    ∀ l ∈ genLines d, ('\n' : Char) ∉ l := by
  intro l hl
  rw [genLines, List.mem_flatMap] at hl
  obtain ⟨s, hs, hl⟩ := hl
  rcases List.mem_cons.mp hl with rfl | hl2
  · intro hm
    rcases List.mem_cons.mp hm with h1 | h2
    · exact absurd h1 (by decide)
    · rcases List.mem_append.mp h2 with h3 | h4
      · exact (hd s hs).1 h3
      · exact absurd (List.mem_singleton.mp h4) (by decide)
  · rcases List.mem_append.mp hl2 with h5 | h6
    · rw [List.mem_map] at h5
      obtain ⟨kv, hkv, rfl⟩ := h5
      intro hm
      rcases List.mem_append.mp hm with h7 | h8
      · exact ((hd s hs).2 kv hkv).1 h7
      · rcases List.mem_cons.mp h8 with h9 | h10
        · exact absurd h9 (by decide)
        · exact ((hd s hs).2 kv hkv).2 h10
    · rw [List.mem_singleton.mp h6]
      intro hm
      cases hm

/-- C9: serializing a freshly parsed Document and re-parsing the output
reproduces the Document exactly, whenever every parsed key and value is
free of `=`, `[`, `]` and carries no leading or trailing whitespace. -/
theorem claim9_theorem (text : Str)
    (h : ∀ p ∈ (parseText text).sections, ∀ kv ∈ p.2,
      (('=' : Char) ∉ kv.1 ∧ ('[' : Char) ∉ kv.1 ∧ (']' : Char) ∉ kv.1 ∧
        ltrim kv.1 = kv.1 ∧ rtrim kv.1 = kv.1) ∧
      (('=' : Char) ∉ kv.2 ∧ ('[' : Char) ∉ kv.2 ∧ (']' : Char) ∉ kv.2 ∧
        ltrim kv.2 = kv.2 ∧ rtrim kv.2 = kv.2)) :
    (parseText (generate (parseText text).sections)).sections =
      (parseText text).sections := by
  have hst : StInv (parseText text) := stInv_parseLs (getlines text)
  have hnl : NlInv (parseText text) := nlInv_parseText text
  have hgood : ∀ p ∈ (parseText text).sections, p.2 ≠ [] ∧ SortedMap p.2 ∧
      ∀ kv ∈ p.2, RTKey kv.1 ∧ RTVal kv.2 := by
    intro p hp
    have h1 := hst.2 p hp
    refine ⟨h1.1, h1.2.1, ?_⟩
    intro kv hkv
    have h2 := h1.2.2 kv hkv
    have h3 := h p hp kv hkv
    refine ⟨⟨h2.1, h2.2, ?_, h3.1.1, h3.1.2.2.2.1, h3.1.2.2.2.2⟩,
      h3.2.2.2.2.1, h3.2.2.2.2.2⟩
    intro hh
    apply h3.1.2.1
    cases hk : kv.1 with
    | nil => rw [hk] at hh; cases hh
    | cons c r =>
      rw [hk] at hh
      injection hh with hh
      rw [← hh]
      exact List.mem_cons_self _ _
  have hlines : ∀ l ∈ genLines (parseText text).sections, ('\n' : Char) ∉ l :=
    genLines_no_nl hnl.2
  have hsplitL : getlines (generate (parseText text).sections) =
      genLines (parseText text).sections :=
    getlines_joinNl _ hlines
  have hpt : parseText (generate (parseText text).sections) =
      List.foldl parseLine initState (genLines (parseText text).sections) := by
    rw [parseText, hsplitL, parseLs]
  rw [hpt]
  obtain ⟨s', hres⟩ := reparse_doc (parseText text).sections [] initState rfl
    (by simpa [SortedMap] using hst.1) hgood
  rw [hres]
  simp

/-- Witness for C9 at the text `"k=v\n[s]\na=1"`. -/
theorem claim9_witness :
    (∀ p ∈ (parseText juiceText).sections, ∀ kv ∈ p.2,
      (('=' : Char) ∉ kv.1 ∧ ('[' : Char) ∉ kv.1 ∧ (']' : Char) ∉ kv.1 ∧
        ltrim kv.1 = kv.1 ∧ rtrim kv.1 = kv.1) ∧
      (('=' : Char) ∉ kv.2 ∧ ('[' : Char) ∉ kv.2 ∧ (']' : Char) ∉ kv.2 ∧
        ltrim kv.2 = kv.2 ∧ rtrim kv.2 = kv.2)) ∧
    (parseText (generate (parseText juiceText).sections)).sections =
      (parseText juiceText).sections :=
  ⟨by decide, claim9_theorem juiceText (by decide)⟩

end Inipp